import Mathlib

/-!
Shallow embedding of the vibetree variable-allocation and reconciliation
engine (Rust sources: `src/template.rs`, `src/allocator.rs`, `src/config.rs`,
`src/sync.rs`, `src/ports.rs`).

Machine integers (`u16`) are modelled as `Nat` with explicit `≤ 65535`
range checks exactly where the Rust code checks or relies on them.
Rust `HashMap`s are modelled as association lists; only their value sets
matter to the allocation logic, and insertion order stands in for the
(unspecified) iteration order of the Rust `HashMap`.
The operating-system port probe (`PortManager::check_port_availability`,
which binds a TCP listener) is modelled as an oracle parameter
`oracle : Nat → Bool`; the `regex` crate's pattern compilation and
search are modelled as oracle parameters `rvalid : String → Bool` /
`rmatch : String → String → Bool`; and the crate's Unicode
decimal-digit class `\p{Nd}` (its `\d`) as an oracle parameter
`nd : Char → Bool`.
Nontermination of a Rust loop is modelled by fuelled recursion: the outer
`Option` layer of a result is `none` exactly when the fuel, chosen large
enough for every terminating execution, runs out.
-/

/-! ## Decimal digits, `u16` string parsing and printing

Models Rust's `str::parse::<u16>` (optional leading `+`, one or more ASCII
digits, value at most 65535) and `u16::to_string`. -/

def isDigitChar (c : Char) : Bool :=
  48 ≤ c.toNat && c.toNat ≤ 57

def digitVal (c : Char) : Nat := c.toNat - 48

/-- Numeric value of a digit string (most significant digit first). -/
def digitsVal (cs : List Char) : Nat :=
  cs.foldl (fun a c => 10 * a + digitVal c) 0

/-- Rust `str::parse::<u16>`: optional leading `+`, then one or more ASCII
digits, value at most 65535. -/
def parseU16 (cs : List Char) : Option Nat :=
  let ds := match cs with
    | c :: rest => if c = '+' then rest else c :: rest
    | [] => []
  if ds.isEmpty then none
  else if ds.all isDigitChar then
    if digitsVal ds ≤ 65535 then some (digitsVal ds) else none
  else none

def digitChar (d : Nat) : Char := Char.ofNat (48 + d)

/-- Decimal digits of `n`, most significant first; fuelled so that it reduces
definitionally (fuel `n+1` always suffices). Models `u16::to_string`. -/
def toDecimalAux : Nat → Nat → List Char
  | 0, _ => []
  | f + 1, n =>
    if n < 10 then [digitChar n]
    else toDecimalAux f (n / 10) ++ [digitChar (n % 10)]

def natToString (n : Nat) : String := ⟨toDecimalAux (n + 1) n⟩

/-!
The `regex` crate's `\d` is the Unicode decimal-digit class `\p{Nd}` (not
just ASCII `0-9`).  The class is a large Unicode table inside the crate,
so — like the regex search oracle below — it enters the model as a
parameter `nd : Char → Bool`; the only facts about the true class that
the theorems rely on are stated as explicit hypotheses (the ASCII digits
belong to it, the braces do not).  `ndAsciiArabic` below is a concrete
fragment of the class used to evaluate the model on concrete inputs. -/

/-- Maximal prefix of `nd`-digits, together with the rest of the string. -/
def takeDigits (nd : Char → Bool) : List Char → List Char × List Char
  | [] => ([], [])
  | c :: cs =>
    if nd c then
      let p := takeDigits nd cs
      (c :: p.1, p.2)
    else ([], c :: cs)

/-- Maximal runs of `nd`-digits in a string, in order (Rust regex `\d+`
via `find_iter`); fuelled with the string length. -/
def digitRunsAux (nd : Char → Bool) : Nat → List Char → List (List Char)
  | 0, _ => []
  | _ + 1, [] => []
  | f + 1, c :: cs =>
    if nd c then
      (c :: (takeDigits nd cs).1) :: digitRunsAux nd f (takeDigits nd cs).2
    else digitRunsAux nd f cs

def digitRuns (nd : Char → Bool) (cs : List Char) : List (List Char) :=
  digitRunsAux nd cs.length cs

/-- A concrete fragment of the Unicode decimal-digit class `Nd`: the ASCII
digits together with the Arabic-Indic digit block U+0660–U+0669.  The
scanners consult the digit class only at characters of their input, so any
class that agrees with `Nd` on the input's characters computes the
program's result on that input; `ndAsciiArabic` so agrees on every
character appearing in the concrete inputs of this file. -/
def ndAsciiArabic (c : Char) : Bool :=
  isDigitChar c || (0x660 ≤ c.toNat && c.toNat ≤ 0x669)

/-! ## Template parser (`src/template.rs`)

`COMPONENT_REGEX` is `\{(port|int):(\d+)\}`; `captures_iter` yields the
non-overlapping leftmost matches.  The scanner below walks the string left
to right: at each position it tries to match a full directive and otherwise
advances one character, which computes exactly that match set. -/

inductive ComponentType where
  | port (base : Nat)
  | int (base : Nat)
deriving DecidableEq

structure TemplateComponent where
  component_type : ComponentType
  start_pos : Nat
  end_pos : Nat
deriving DecidableEq

structure ParsedTemplate where
  original : String
  components : List TemplateComponent
deriving DecidableEq

/-- Directive kind before the numeric value is parsed. -/
inductive DirKind where
  | port
  | int
deriving DecidableEq

/-- A raw regex match: kind, digit characters, start offset, end offset. -/
abbrev RawMatch := DirKind × List Char × Nat × Nat

/-- The literal text of a directive: `{port:ds}` or `{int:ds}`. -/
def dirText (k : DirKind) (ds : List Char) : List Char :=
  match k with
  | .port => '{' :: 'p' :: 'o' :: 'r' :: 't' :: ':' :: (ds ++ ['}'])
  | .int => '{' :: 'i' :: 'n' :: 't' :: ':' :: (ds ++ ['}'])

/-- Try to match `\{(port|int):(\d+)\}` at the head of the string, returning
the kind, the digit run and the rest of the string after the match. -/
def matchDirective (nd : Char → Bool) : List Char → Option (DirKind × List Char × List Char)
  | '{' :: 'p' :: 'o' :: 'r' :: 't' :: ':' :: rest =>
    match takeDigits nd rest with
    | ([], _) => none
    | (ds, '}' :: rest2) => some (.port, ds, rest2)
    | (_, _) => none
  | '{' :: 'i' :: 'n' :: 't' :: ':' :: rest =>
    match takeDigits nd rest with
    | ([], _) => none
    | (ds, '}' :: rest2) => some (.int, ds, rest2)
    | (_, _) => none
  | _ => none

/-- Left-to-right scan for the non-overlapping leftmost matches of
`COMPONENT_REGEX`, with byte positions; fuelled with the string length
(each step consumes at least one character). -/
def scanAux (nd : Char → Bool) : Nat → List Char → Nat → List RawMatch
  | 0, _, _ => []
  | _ + 1, [], _ => []
  | f + 1, c :: cs, pos =>
    match matchDirective nd (c :: cs) with
    | some (k, ds, rest) =>
      let len := (c :: cs).length - rest.length
      (k, ds, pos, pos + len) :: scanAux nd f rest (pos + len)
    | none => scanAux nd f cs (pos + 1)

def scanTemplate (nd : Char → Bool) (cs : List Char) (pos : Nat) : List RawMatch :=
  scanAux nd cs.length cs pos

/-- Convert raw matches to components, failing on the first captured digit
run whose `u16` parse fails (Rust: `value_str.parse::<u16>()?` — the parse
fails when the run contains a non-ASCII digit, or denotes a value above
65535). -/
def buildComponents : List RawMatch → Except String (List TemplateComponent)
  | [] => .ok []
  | (k, ds, st, en) :: rest =>
    match parseU16 ds with
    | some v =>
      match buildComponents rest with
      | .ok comps =>
        .ok (⟨match k with
              | .port => .port v
              | .int => .int v, st, en⟩ :: comps)
      | .error e => .error e
    | none => .error "Invalid value in component"

/-- `ParsedTemplate::parse`. -/
def ParsedTemplate.parse (nd : Char → Bool) (template : String) :
    Except String ParsedTemplate :=
  match buildComponents (scanTemplate nd template.data 0) with
  | .ok comps => .ok ⟨template, comps⟩
  | .error e => .error e

def ParsedTemplate.has_components (t : ParsedTemplate) : Bool :=
  !t.components.isEmpty

/-- `original[a..b]` for byte offsets `a ≤ b`. -/
def sliceL (l : List Char) (a b : Nat) : List Char :=
  (l.take b).drop a

/-- The loop of `ParsedTemplate::resolve`: walk components in order keeping
`last_pos`, emitting the literal text before each component followed by the
allocated value looked up by index, and finally the tail of the original.
(The Rust code accumulates into one growing string; this right-associated
recursion produces the same concatenation.) -/
def resolveLoop (orig : List Char) (vals : List String) :
    List TemplateComponent → Nat → Nat → Except String (List Char)
  | [], _, last => .ok (orig.drop last)
  | c :: rest, idx, last =>
    match vals[idx]? with
    | none => .error "No allocated value for component"
    | some v =>
      match resolveLoop orig vals rest (idx + 1) c.end_pos with
      | .ok tail => .ok (sliceL orig last c.start_pos ++ v.data ++ tail)
      | .error e => .error e

/-- `ParsedTemplate::resolve` (the `HashMap<usize, String>` of allocated
values is modelled as a positional list; a missing index is an error). -/
def ParsedTemplate.resolve (t : ParsedTemplate) (allocated_values : List String) :
    Except String String :=
  if t.components.isEmpty then .ok t.original
  else
    match resolveLoop t.original.data allocated_values t.components 0 0 with
    | .ok cs => .ok ⟨cs⟩
    | .error e => .error e

/-! ## Variable allocator (`src/allocator.rs`)

`VariableConfig` here is the allocator generation of the config model:
`name`, optional toml `value`, optional explicit `type`, optional `branch`
regex pattern.  `WorktreeConfig.values` maps variable names to allocated
string values. -/

inductive VariableType where
  | port
  | int
deriving DecidableEq

/-- The toml values the allocator distinguishes: integers, strings, and
everything else (rejected). -/
inductive TomlValue where
  | int (n : Int)
  | str (s : String)
  | other
deriving DecidableEq

structure VariableConfig where
  name : String
  value : Option TomlValue
  type : Option VariableType
  branch : Option String
deriving DecidableEq

structure WorktreeConfig where
  values : List (String × String)
deriving DecidableEq

namespace VariableAllocator

/-- Numbers reserved by one stored value string: the whole-string `u16`
parse if it succeeds, otherwise every maximal `\d`-run whose `u16` parse
succeeds (`NUMBER_REGEX.find_iter` + `parse::<u16>`; a run containing a
non-ASCII digit fails that parse and reserves nothing). This single
definition stands for the two textually identical loops in
`get_all_used_ports` and `allocate_int_component`. -/
def numbersIn (nd : Char → Bool) (s : String) : List Nat :=
  match parseU16 s.data with
  | some n => [n]
  | none => (digitRuns nd s.data).filterMap parseU16

/-- `VariableAllocator::get_all_used_ports` (and the identical used-set
computation inlined in `allocate_int_component`). -/
def get_all_used_ports (nd : Char → Bool)
    (existing_worktrees : List (String × WorktreeConfig)) : List Nat :=
  existing_worktrees.flatMap fun wt =>
    wt.2.values.flatMap fun p => numbersIn nd p.2

/-- The search loop of `allocate_port_component`: try `port`, on failure
`checked_add(1)`; the fuel counts the remaining candidates up to 65535, so
running out of fuel is exactly the `checked_add` overflow error. -/
def portSearch (oracle : Nat → Bool) (used : List Nat) :
    Nat → Nat → Except String Nat
  | 0, _ => .error "Port overflow while allocating"
  | f + 1, port =>
    if !used.contains port && oracle port then .ok port
    else portSearch oracle used f (port + 1)

/-- `VariableAllocator::allocate_port_component`. -/
def allocate_port_component (nd : Char → Bool) (oracle : Nat → Bool)
    (base_port : Nat)
    (existing_worktrees : List (String × WorktreeConfig)) : Except String String :=
  (portSearch oracle (get_all_used_ports nd existing_worktrees)
      (65536 - base_port) base_port).map natToString

/-- The search loop of `allocate_int_component`:
`while used.contains value { value = value.saturating_add(1) }`.
Fuel 65536 suffices whenever the loop terminates; `none` models the Rust
loop spinning forever on a saturated, still-used value. -/
def intSearch (used : List Nat) : Nat → Nat → Option Nat
  | 0, _ => none
  | f + 1, value =>
    if used.contains value then intSearch used f (min (value + 1) 65535)
    else some value

/-- `VariableAllocator::allocate_int_component` (`none` = the Rust loop
does not terminate). -/
def allocate_int_component (nd : Char → Bool) (base_int : Nat)
    (existing_worktrees : List (String × WorktreeConfig)) : Option Nat :=
  intSearch (get_all_used_ports nd existing_worktrees) 65536 base_int

/-- `VariableAllocator::matches_branch`; `rvalid`/`rmatch` are the regex
engine oracle (compilation success and unanchored search). -/
def matches_branch (rvalid : String → Bool) (rmatch : String → String → Bool)
    (v : VariableConfig) (branch_name : String) : Except String Bool :=
  match v.branch with
  | some pat =>
    if rvalid pat then .ok (rmatch pat branch_name)
    else .error "Invalid regex pattern for variable"
  | none => .ok true

/-- Allocate the components of a parsed template in order (the loop in the
string arm of `allocate_variable`); the resulting list is positional, and
stands for the `HashMap<usize, String>` keyed by the enumeration index. -/
def allocComponents (nd : Char → Bool) (oracle : Nat → Bool)
    (existing_worktrees : List (String × WorktreeConfig)) :
    List TemplateComponent → Option (Except String (List String))
  | [] => some (.ok [])
  | c :: rest =>
    match c.component_type with
    | .port b =>
      match allocate_port_component nd oracle b existing_worktrees with
      | .error e => some (.error e)
      | .ok v =>
        match allocComponents nd oracle existing_worktrees rest with
        | none => none
        | some (.error e) => some (.error e)
        | some (.ok vs) => some (.ok (v :: vs))
    | .int b =>
      match allocate_int_component nd b existing_worktrees with
      | none => none
      | some n =>
        match allocComponents nd oracle existing_worktrees rest with
        | none => none
        | some (.error e) => some (.error e)
        | some (.ok vs) => some (.ok (natToString n :: vs))

/-- `pat` occurs as a contiguous subsequence of the list
(Rust `str::contains`). -/
def containsSeq (pat : List Char) : List Char → Bool
  | [] => pat.isEmpty
  | c :: cs => pat.isPrefixOf (c :: cs) || containsSeq pat cs

/-- Heuristic kind inference for a bare number without a `type` field:
`port` iff the lowercased name contains the substring `port`. -/
def inferredIsPort (name : String) : Bool :=
  containsSeq ['p', 'o', 'r', 't'] (name.data.map Char.toLower)

/-- `VariableAllocator::allocate_variable`.  Outer `Option` is `none` when
the underlying Rust code fails to terminate (saturated int search). -/
def allocate_variable (nd : Char → Bool) (oracle : Nat → Bool)
    (v : VariableConfig)
    (existing_worktrees : List (String × WorktreeConfig)) :
    Option (Except String String) :=
  match v.value with
  | none => some (.error "Variable must have a value field")
  | some (.int num) =>
    -- u16::try_from
    if num < 0 ∨ 65535 < num then
      some (.error "Variable has invalid port/int value")
    else
      let n := num.toNat
      match v.type with
      | some .port => some (allocate_port_component nd oracle n existing_worktrees)
      | some .int =>
        (allocate_int_component nd n existing_worktrees).map fun r =>
          .ok (natToString r)
      | none =>
        -- heuristic on the name, with a printed warning (not modelled)
        if inferredIsPort v.name then
          some (allocate_port_component nd oracle n existing_worktrees)
        else
          (allocate_int_component nd n existing_worktrees).map fun r =>
            .ok (natToString r)
  | some (.str s) =>
    match ParsedTemplate.parse nd s with
    | .error e => some (.error e)
    | .ok t =>
      if !t.has_components then some (.ok s)
      else
        match allocComponents nd oracle existing_worktrees t.components with
        | none => none
        | some (.error e) => some (.error e)
        | some (.ok vs) => some (t.resolve vs)
  | some .other => some (.error "Variable has unsupported value type")

/-- The loop of `allocate_values`, carrying the `allocated` map in insertion
order. -/
def allocate_values_go (nd : Char → Bool) (rvalid : String → Bool)
    (rmatch : String → String → Bool)
    (oracle : Nat → Bool) (branch_name : String)
    (existing_worktrees : List (String × WorktreeConfig)) :
    List VariableConfig → List (String × String) →
    Option (Except String (List (String × String)))
  | [], allocated => some (.ok allocated)
  | v :: rest, allocated =>
    if allocated.any (fun p => p.1 == v.name) then
      allocate_values_go nd rvalid rmatch oracle branch_name existing_worktrees
        rest allocated
    else
      match matches_branch rvalid rmatch v branch_name with
      | .error e => some (.error e)
      | .ok false =>
        allocate_values_go nd rvalid rmatch oracle branch_name existing_worktrees
          rest allocated
      | .ok true =>
        match allocate_variable nd oracle v existing_worktrees with
        | none => none
        | some (.error e) => some (.error e)
        | some (.ok value) =>
          allocate_values_go nd rvalid rmatch oracle branch_name existing_worktrees
            rest (allocated ++ [(v.name, value)])

/-- `VariableAllocator::allocate_values` (`vars` is the Rust `variables`
argument; `variable` is a reserved word in Lean). -/
def allocate_values (nd : Char → Bool) (rvalid : String → Bool)
    (rmatch : String → String → Bool)
    (oracle : Nat → Bool) (vars : List VariableConfig)
    (branch_name : String)
    (existing_worktrees : List (String × WorktreeConfig)) :
    Option (Except String (List (String × String))) :=
  allocate_values_go nd rvalid rmatch oracle branch_name existing_worktrees
    vars []

end VariableAllocator

/-! ## Config store and reconciler (`src/config.rs`, `src/sync.rs`)

This is the `u16`-valued generation of the config model that `sync.rs`
operates on: `VariableConfig` is `name`/`default_value`, worktree records
map variable names to `u16` values.  Filesystem paths are modelled as
segment lists, env-file generation and config saves as emitted actions,
and `Path::exists` as an oracle `fsExists`. -/

namespace SyncModel

structure VariableConfig where
  name : String
  default_value : Nat
deriving DecidableEq

structure WorktreeConfig where
  values : List (String × Nat)
deriving DecidableEq

/-- `VibeTreeProjectConfig` (`vars` models the Rust `variables` field;
`variable` is a reserved word in Lean). -/
structure ProjectConfig where
  vars : List VariableConfig
  main_branch : String
  branches_dir : String
  env_file_path : String
deriving DecidableEq

/-- `GitManager::discover_worktrees` output entries. -/
structure DiscoveredWorktree where
  branch : Option String
  path : List String
  is_bare : Bool
  is_detached : Bool
deriving DecidableEq

/-- Observable side effects of one reconciliation pass: the three repair
actions (in the order the pass announces them), env-file writes, and
persistence of the two config documents. -/
inductive SyncAction where
  | addOrphan (branch : String)
  | removeMissing (branch : String)
  | updateMismatch (branch : String)
  | envWrite (env_path : List String) (branch : String) (values : List (String × Nat))
  | saveBranches
  | saveAll
deriving DecidableEq

/-- `HashMap::insert`: replace the value at the key, or append. -/
def insertA {α : Type} (m : List (String × α)) (k : String) (v : α) :
    List (String × α) :=
  if m.any (fun p => p.1 == k) then
    m.map fun p => if p.1 == k then (k, v) else p
  else m ++ [(k, v)]

/-- `VibeTreeProjectConfig::get_all_used_values`. -/
def get_all_used_values (wts : List (String × WorktreeConfig)) : List Nat :=
  wts.flatMap fun w => w.2.values.map Prod.snd

/-- The per-variable search loop of `VibeTreeProjectConfig::allocate_values`:
`while used.contains(value) { value += 1 }` on a `u16`; `+= 1` wraps in a
release build, so the candidates are the 65536 values starting at the base,
and `none` models the loop running forever (every `u16` in use). -/
def findFree (used : List Nat) : Nat → Nat → Option Nat
  | 0, _ => none
  | f + 1, value =>
    if used.contains value then findFree used f ((value + 1) % 65536)
    else some value

def allocate_values_go (used : List Nat) :
    List VariableConfig → List (String × Nat) → Option (List (String × Nat))
  | [], acc => some acc
  | v :: rest, acc =>
    match findFree used 65536 v.default_value with
    | none => none
    | some value => allocate_values_go used rest (insertA acc v.name value)

/-- `VibeTreeProjectConfig::allocate_values`: the used-set is computed once,
up front, and not updated as the pass allocates. -/
def ProjectConfig.allocate_values (proj : ProjectConfig)
    (existing_worktrees : List (String × WorktreeConfig)) :
    Option (List (String × Nat)) :=
  allocate_values_go (get_all_used_values existing_worktrees) proj.vars []

/-- A custom value collides with another worktree's allocation
(the conflict scan of `add_or_update_worktree`; `excluded` is the worktree
being updated, excluded from the scan). -/
def conflictWith (wts : List (String × WorktreeConfig)) (excluded : Option String)
    (custom : List (String × Nat)) : Bool :=
  custom.any fun p =>
    wts.any fun w =>
      (match excluded with
       | some name => w.1 != name
       | none => true) && w.2.values.any (fun q => q.2 == p.2)

/-- `VibeTreeConfig::add_or_update_worktree`.  Returns the result, the new
worktree map, and the emitted actions (a branches-config save on success). -/
def add_or_update_worktree (proj : ProjectConfig)
    (wts : List (String × WorktreeConfig)) (name : String)
    (custom_values : Option (List (String × Nat))) :
    Option (Except String (List (String × Nat)) ×
      List (String × WorktreeConfig) × List SyncAction) :=
  match custom_values with
  | some custom =>
    if conflictWith wts (some name) custom then
      some (.error "Value is already allocated to another worktree", wts, [])
    else
      some (.ok custom, insertA wts name ⟨custom⟩, [.saveBranches])
  | none =>
    if proj.vars.isEmpty then
      some (.ok [], insertA wts name ⟨[]⟩, [.saveBranches])
    else
      match proj.allocate_values wts with
      | none => none
      | some values =>
        some (.ok values, insertA wts name ⟨values⟩, [.saveBranches])

/-- `VibeTreeConfig::add_worktree`. -/
def add_worktree (proj : ProjectConfig)
    (wts : List (String × WorktreeConfig)) (name : String)
    (custom_values : Option (List (String × Nat))) :
    Option (Except String (List (String × Nat)) ×
      List (String × WorktreeConfig) × List SyncAction) :=
  if wts.any (fun w => w.1 == name) then
    some (.error "Worktree already exists", wts, [])
  else
    match custom_values with
    | some custom =>
      if conflictWith wts none custom then
        some (.error "Value is already allocated to another worktree", wts, [])
      else
        some (.ok custom, insertA wts name ⟨custom⟩, [.saveBranches])
    | none =>
      if proj.vars.isEmpty then
        some (.ok [], insertA wts name ⟨[]⟩, [.saveBranches])
      else
        match proj.allocate_values wts with
        | none => none
        | some values =>
          some (.ok values, insertA wts name ⟨values⟩, [.saveBranches])

/-- `VibeTreeConfig::remove_worktree`. -/
def remove_worktree (wts : List (String × WorktreeConfig)) (name : String) :
    Except String Unit × List (String × WorktreeConfig) × List SyncAction :=
  if wts.any (fun w => w.1 == name) then
    (.ok (), wts.filter (fun w => w.1 != name), [.saveBranches])
  else
    (.error "Worktree does not exist", wts, [])

/-- `SyncPlan`. -/
structure SyncPlan where
  orphaned_worktrees : List (String × List String)
  missing_worktrees : List String
  config_mismatches : List String
deriving DecidableEq

def SyncPlan.needs_changes (p : SyncPlan) : Bool :=
  !p.orphaned_worktrees.isEmpty || !p.missing_worktrees.isEmpty ||
    !p.config_mismatches.isEmpty

/-- Two name lists denote the same `HashSet` (the key-set comparison of
`analyze_sync_needs`). -/
def sameNameSet (xs ys : List String) : Bool :=
  xs.all (fun x => ys.contains x) && ys.all (fun y => xs.contains y)

/-- `SyncManager::analyze_sync_needs`. -/
def analyze_sync_needs (proj : ProjectConfig)
    (wts : List (String × WorktreeConfig))
    (discovered : List DiscoveredWorktree) (branches_dir : List String) :
    SyncPlan where
  orphaned_worktrees := discovered.filterMap fun d =>
    match d.branch with
    | none => none
    | some b =>
      if d.is_bare || d.is_detached then none
      else
        let is_main_worktree := b == proj.main_branch
        let is_branch_worktree := branches_dir.isPrefixOf d.path
        if (is_main_worktree || is_branch_worktree) &&
            !(wts.any (fun w => w.1 == b)) then
          some (b, d.path)
        else none
  missing_worktrees := wts.filterMap fun w =>
    if discovered.any (fun d => d.branch == some w.1) then none else some w.1
  config_mismatches := wts.filterMap fun w =>
    if sameNameSet (proj.vars.map (·.name)) (w.2.values.map (·.1)) then none
    else some w.1

/-- `SyncManager::add_main_worktree`: find the first worktree whose values
intersect the configured base values, reassign it, then install the main
branch with exactly the literal base values; a failure of that install is
recorded and an empty value map returned. -/
def add_main_worktree (proj : ProjectConfig)
    (wts : List (String × WorktreeConfig)) (branch_name : String) :
    Option (List (String × Nat) × List (String × WorktreeConfig) ×
      List SyncAction × List String) :=
  let base_ports := proj.vars.map (·.default_value)
  let conflicting := wts.find? fun w =>
    w.1 != branch_name && w.2.values.any (fun p => base_ports.contains p.2)
  let step1 :
      Option (List (String × WorktreeConfig) × List SyncAction × List String) :=
    match conflicting with
    | none => some (wts, [], [])
    | some w =>
      match add_or_update_worktree proj wts w.1 none with
      | none => none
      | some (.error _, wts1, acts1) =>
        some (wts1, acts1, ["Failed to reassign ports"])
      | some (.ok _, wts1, acts1) => some (wts1, acts1, [])
  match step1 with
  | none => none
  | some (wts1, acts1, errs1) =>
    let main_ports := proj.vars.map fun v => (v.name, v.default_value)
    match add_or_update_worktree proj wts1 branch_name (some main_ports) with
    | none => none
    | some (.error _, wts2, acts2) =>
      some ([], wts2, acts1 ++ acts2, errs1 ++ ["Failed to add main worktree"])
    | some (.ok ports, wts2, acts2) => some (ports, wts2, acts1 ++ acts2, errs1)

/-- The first loop of `apply_sync_changes`: add orphaned worktrees
(main gets `add_main_worktree`, others a normal allocation; a failed
normal addition skips the env write). -/
def applyOrphans (proj : ProjectConfig) (parent : List String) :
    List (String × List String) → List (String × WorktreeConfig) →
    Option (List (String × WorktreeConfig) × List SyncAction × List String)
  | [], wts => some (wts, [], [])
  | (b, path) :: rest, wts =>
    let step :
        Option (Option (List (String × Nat)) × List (String × WorktreeConfig) ×
          List SyncAction × List String) :=
      if b == proj.main_branch then
        match add_main_worktree proj wts b with
        | none => none
        | some (ports, wts1, acts1, errs1) => some (some ports, wts1, acts1, errs1)
      else
        match add_worktree proj wts b none with
        | none => none
        | some (.error _, wts1, acts1) =>
          some (none, wts1, acts1, ["Failed to add worktree"])
        | some (.ok ports, wts1, acts1) => some (some ports, wts1, acts1, [])
    match step with
    | none => none
    | some (portsOpt, wts1, acts1, errs1) =>
      let envActs := match portsOpt with
        | none => []
        | some ports => [SyncAction.envWrite (path ++ [proj.env_file_path]) b ports]
      match applyOrphans proj parent rest wts1 with
      | none => none
      | some (wts2, acts2, errs2) =>
        some (wts2, SyncAction.addOrphan b :: (acts1 ++ envActs ++ acts2),
          errs1 ++ errs2)

/-- The second loop of `apply_sync_changes`: remove missing worktrees. -/
def applyMissing : List String → List (String × WorktreeConfig) →
    List (String × WorktreeConfig) × List SyncAction × List String
  | [], wts => (wts, [], [])
  | b :: rest, wts =>
    let step := remove_worktree wts b
    let errs1 := match step.1 with
      | .ok _ => []
      | .error _ => ["Failed to remove worktree"]
    let r := applyMissing rest step.2.1
    (r.1, SyncAction.removeMissing b :: (step.2.2 ++ r.2.1), errs1 ++ r.2.2)

/-- The third loop of `apply_sync_changes`: re-allocate worktrees whose
variable sets drifted from the project config, regenerating their env
files. -/
def applyMismatches (proj : ProjectConfig) (parent branches_dir : List String) :
    List String → List (String × WorktreeConfig) →
    Option (List (String × WorktreeConfig) × List SyncAction × List String)
  | [], wts => some (wts, [], [])
  | b :: rest, wts =>
    match add_or_update_worktree proj wts b none with
    | none => none
    | some (.error _, wts1, acts1) =>
      match applyMismatches proj parent branches_dir rest wts1 with
      | none => none
      | some (wts2, acts2, errs2) =>
        some (wts2, SyncAction.updateMismatch b :: (acts1 ++ acts2),
          "Failed to update worktree" :: errs2)
    | some (.ok ports, wts1, acts1) =>
      let worktree_path :=
        if b == proj.main_branch then parent else branches_dir ++ [b]
      let envAct :=
        SyncAction.envWrite (worktree_path ++ [proj.env_file_path]) b ports
      match applyMismatches proj parent branches_dir rest wts1 with
      | none => none
      | some (wts2, acts2, errs2) =>
        some (wts2, SyncAction.updateMismatch b :: (acts1 ++ [envAct] ++ acts2),
          errs2)

/-- `SyncManager::regenerate_all_env_files`. -/
def regenerate_all_env_files (proj : ProjectConfig)
    (fsExists : List String → Bool) (parent branches_dir : List String)
    (wts : List (String × WorktreeConfig)) : List SyncAction :=
  wts.flatMap fun w =>
    let worktree_path :=
      if w.1 == proj.main_branch then parent else branches_dir ++ [w.1]
    let env_file_path := worktree_path ++ [proj.env_file_path]
    if fsExists env_file_path || fsExists worktree_path then
      [SyncAction.envWrite env_file_path w.1 w.2.values]
    else []

/-- `SyncManager::apply_sync_changes`: orphaned additions, then missing
removals, then mismatched updates, then a full env regeneration and one
final save of both documents. -/
def apply_sync_changes (proj : ProjectConfig) (fsExists : List String → Bool)
    (parent branches_dir : List String) (plan : SyncPlan)
    (wts : List (String × WorktreeConfig)) :
    Option (List (String × WorktreeConfig) × List SyncAction × List String) :=
  match applyOrphans proj parent plan.orphaned_worktrees wts with
  | none => none
  | some (wts1, acts1, errs1) =>
    let r2 := applyMissing plan.missing_worktrees wts1
    match applyMismatches proj parent branches_dir plan.config_mismatches r2.1 with
    | none => none
    | some (wts3, acts3, errs3) =>
      let regen := regenerate_all_env_files proj fsExists parent branches_dir wts3
      some (wts3, acts1 ++ r2.2.1 ++ acts3 ++ regen ++ [SyncAction.saveAll],
        errs1 ++ r2.2.2 ++ errs3)

/-- `SyncManager::update_env_files` (the zero-diff path): refresh the env
file of every worktree whose directory exists. -/
def update_env_files (proj : ProjectConfig) (fsExists : List String → Bool)
    (parent branches_dir : List String)
    (wts : List (String × WorktreeConfig)) : List SyncAction :=
  wts.flatMap fun w =>
    let worktree_path :=
      if w.1 == proj.main_branch then parent else branches_dir ++ [w.1]
    if fsExists worktree_path then
      [SyncAction.envWrite (worktree_path ++ [proj.env_file_path]) w.1 w.2.values]
    else []

/-- `SyncManager::sync`: analyze, handle the zero-diff path, stop on
dry-run, otherwise apply.  Returns the final worktree map, the emitted
actions, and the accumulated per-item errors. -/
def sync (dry_run : Bool) (fsExists : List String → Bool)
    (discovered : List DiscoveredWorktree) (parent : List String)
    (proj : ProjectConfig) (wts : List (String × WorktreeConfig)) :
    Option (List (String × WorktreeConfig) × List SyncAction × List String) :=
  let branches_dir := parent ++ [proj.branches_dir]
  let plan := analyze_sync_needs proj wts discovered branches_dir
  if !plan.needs_changes then
    some (wts, update_env_files proj fsExists parent branches_dir wts, [])
  else if dry_run then
    some (wts, [], [])
  else
    apply_sync_changes proj fsExists parent branches_dir plan wts

end SyncModel

/-! ## Derived definitions used by the verification -/

namespace VariableAllocator

/-- A candidate the port loop accepts: unused and bindable. -/
def goodPort (oracle : Nat → Bool) (used : List Nat) (p : Nat) : Prop :=
  used.contains p = false ∧ oracle p = true

instance (oracle : Nat → Bool) (used : List Nat) (p : Nat) :
    Decidable (goodPort oracle used p) := by
  unfold goodPort; infer_instance

/-- The Rust loop of `allocate_int_component` runs forever: for every fuel
bound the fuelled model is still running. -/
def intLoopDiverges (used : List Nat) (base : Nat) : Prop :=
  ∀ f, intSearch used f base = none

end VariableAllocator

instance {ε α : Type} [DecidableEq ε] [DecidableEq α] : DecidableEq (Except ε α) := fun a b =>
  match a, b with
  | .ok x, .ok y =>
    if h : x = y then .isTrue (by rw [h]) else .isFalse (by intro hc; cases hc; exact h rfl)
  | .error x, .error y =>
    if h : x = y then .isTrue (by rw [h]) else .isFalse (by intro hc; cases hc; exact h rfl)
  | .ok _, .error _ => .isFalse (by intro h; cases h)
  | .error _, .ok _ => .isFalse (by intro h; cases h)

namespace SyncModel

/-- The three repair announcements of one pass. -/
def isRepairMarker : SyncAction → Bool
  | .addOrphan _ => true
  | .removeMissing _ => true
  | .updateMismatch _ => true
  | _ => false

end SyncModel

/-- The component a raw match turns into when its captured run parses. -/
def rawComp (r : RawMatch) : TemplateComponent :=
  ⟨match r.1 with
   | .port => ComponentType.port ((parseU16 r.2.1).getD 0)
   | .int => ComponentType.int ((parseU16 r.2.1).getD 0), r.2.2.1, r.2.2.2⟩

/-- Interleave literal chunks with directive (or substituted) pieces:
`chunk 0 ++ mid 0 ++ chunk 1 ++ … ++ mid (n-1) ++ chunk n`. -/
def joinInter : List (List Char) → List (List Char) → List Char
  | [], _ => []
  | chunk :: _, [] => chunk
  | chunk :: chunks, m :: ms => chunk ++ m ++ joinInter chunks ms

/-- `Chunked pos cs ms chunks`: the text `cs`, viewed at absolute offset
`pos` inside the original string, decomposes into literal chunks
interleaved with the directive texts of the matches `ms`, whose recorded
offsets are consistent with that decomposition. -/
inductive Chunked : Nat → List Char → List RawMatch → List (List Char) → Prop where
  | nil (pos : Nat) (cs : List Char) : Chunked pos cs [] [cs]
  | cons (pos : Nat) (chunk : List Char) (k : DirKind) (ds rest : List Char)
      (ms : List RawMatch) (chunks : List (List Char)) :
      Chunked (pos + chunk.length + (dirText k ds).length) rest ms chunks →
      Chunked pos (chunk ++ (dirText k ds ++ rest))
        ((k, ds, pos + chunk.length,
          pos + chunk.length + (dirText k ds).length) :: ms)
        (chunk :: chunks)

/-! ## Lemmas: digits, parsing, printing -/

theorem digitChar_spec {d : Nat} (h : d < 10) :
    isDigitChar (digitChar d) = true ∧ digitVal (digitChar d) = d := by
  interval_cases d <;> exact ⟨by decide, by decide⟩

theorem digitsVal_append_singleton (l : List Char) (c : Char) :
    digitsVal (l ++ [c]) = 10 * digitsVal l + digitVal c := by
  simp [digitsVal, List.foldl_append]

theorem toDecimalAux_spec :
    ∀ f n, n < f →
      (toDecimalAux f n).all isDigitChar = true ∧
      toDecimalAux f n ≠ [] ∧
      digitsVal (toDecimalAux f n) = n := by
  intro f
  induction f with
  | zero => omega
  | succ f ih =>
    intro n hn
    by_cases h10 : n < 10
    · simp only [toDecimalAux, if_pos h10]
      refine ⟨?_, by simp, ?_⟩
      · simp [List.all_cons, (digitChar_spec h10).1]
      · simp [digitsVal, (digitChar_spec h10).2]
    · have hdiv : n / 10 < f := by
        have := Nat.div_lt_self (by omega : 0 < n) (by omega : 1 < 10)
        omega
      obtain ⟨h1, h2, h3⟩ := ih (n / 10) hdiv
      simp only [toDecimalAux, if_neg h10]
      have hmod : n % 10 < 10 := Nat.mod_lt _ (by omega)
      refine ⟨?_, by simp, ?_⟩
      · simp only [List.all_append, h1, List.all_cons, List.all_nil,
          (digitChar_spec hmod).1, Bool.and_self, Bool.true_and]
      · rw [digitsVal_append_singleton, h3, (digitChar_spec hmod).2]
        omega

theorem natToString_digits (n : Nat) :
    (natToString n).data.all isDigitChar = true ∧
    (natToString n).data ≠ [] ∧
    digitsVal (natToString n).data = n :=
  toDecimalAux_spec (n + 1) n (Nat.lt_succ_self n)

theorem plus_not_digit : isDigitChar '+' = false := by decide

theorem parseU16_of_digits {cs : List Char} (hne : cs ≠ [])
    (hd : cs.all isDigitChar = true) :
    parseU16 cs = if digitsVal cs ≤ 65535 then some (digitsVal cs) else none := by
  match cs, hne with
  | c :: rest, _ =>
    have hc : isDigitChar c = true := by
      simp [List.all_cons] at hd; exact hd.1
    have hcp : c ≠ '+' := by
      intro h; rw [h] at hc; exact absurd hc (by decide)
    simp only [parseU16, if_neg hcp, List.isEmpty_cons, hd]
    simp

/-- Printing then parsing a `u16` gives the value back. -/
theorem parseU16_natToString {n : Nat} (h : n ≤ 65535) :
    parseU16 (natToString n).data = some n := by
  obtain ⟨h1, h2, h3⟩ := natToString_digits n
  rw [parseU16_of_digits h2 h1, h3, if_pos h]

theorem natToString_inj {m n : Nat} (hm : m ≤ 65535) (hn : n ≤ 65535)
    (h : natToString m = natToString n) : m = n := by
  have := parseU16_natToString hm
  rw [h, parseU16_natToString hn] at this
  exact (Option.some_inj.mp this).symm

theorem parseCore_some {ds : List Char} {n : Nat}
    (h : (if ds.isEmpty then none
          else if ds.all isDigitChar then
            (if digitsVal ds ≤ 65535 then some (digitsVal ds) else none)
          else none) = some n) :
    ds ≠ [] ∧ ds.all isDigitChar = true ∧ digitsVal ds = n ∧ n ≤ 65535 := by
  split at h
  · simp at h
  · split at h
    · split at h
      · rename_i hne hall hle
        refine ⟨by simpa using hne, hall, Option.some_inj.mp h, ?_⟩
        rw [← Option.some_inj.mp h]; exact hle
      · simp at h
    · simp at h

/-- Structure of a successful whole-string `u16` parse. -/
theorem parseU16_some_structure {cs : List Char} {n : Nat}
    (h : parseU16 cs = some n) :
    ∃ ds, (cs = ds ∨ cs = '+' :: ds) ∧ ds ≠ [] ∧ ds.all isDigitChar = true ∧
      digitsVal ds = n ∧ n ≤ 65535 := by
  match cs with
  | [] => simp [parseU16] at h
  | c :: rest =>
    simp only [parseU16] at h
    by_cases hcp : c = '+'
    · rw [if_pos hcp] at h
      obtain ⟨h1, h2, h3, h4⟩ := parseCore_some h
      exact ⟨rest, Or.inr (by rw [hcp]), h1, h2, h3, h4⟩
    · rw [if_neg hcp] at h
      obtain ⟨h1, h2, h3, h4⟩ := parseCore_some h
      exact ⟨c :: rest, Or.inl rfl, h1, h2, h3, h4⟩

/-! ## Lemmas: digit runs -/

theorem takeDigits_append_eq (nd : Char → Bool) : ∀ cs : List Char,
    (takeDigits nd cs).1 ++ (takeDigits nd cs).2 = cs := by
  intro cs
  induction cs with
  | nil => simp [takeDigits]
  | cons c cs ih =>
    by_cases h : nd c
    · simp [takeDigits, h, ih]
    · simp [takeDigits, h]

theorem takeDigits_all (nd : Char → Bool) : ∀ cs : List Char,
    (takeDigits nd cs).1.all nd = true := by
  intro cs
  induction cs with
  | nil => simp [takeDigits]
  | cons c cs ih =>
    by_cases h : nd c
    · simp [takeDigits, h, ih]
    · simp [takeDigits, h]

theorem takeDigits_snd_len (nd : Char → Bool) : ∀ cs : List Char,
    (takeDigits nd cs).2.length ≤ cs.length := by
  intro cs
  induction cs with
  | nil => simp [takeDigits]
  | cons c cs ih =>
    by_cases h : nd c
    · simp only [takeDigits, h, if_pos]
      exact Nat.le_succ_of_le ih
    · simp [takeDigits, h]

/-- `takeDigits` is determined: an all-digit prefix followed by a non-digit
(or nothing) is exactly what it returns. -/
theorem takeDigits_exact (nd : Char → Bool) : ∀ (ds r : List Char),
    ds.all nd = true →
    (∀ c rest2, r = c :: rest2 → nd c = false) →
    takeDigits nd (ds ++ r) = (ds, r) := by
  intro ds
  induction ds with
  | nil =>
    intro r _ hr
    match r with
    | [] => simp [takeDigits]
    | c :: rest2 =>
      simp [takeDigits, hr c rest2 rfl]
  | cons d ds ih =>
    intro r hall hr
    simp only [List.all_cons, Bool.and_eq_true] at hall
    simp [takeDigits, hall.1, ih r hall.2 hr]

theorem digitRunsAux_nil (nd : Char → Bool) : ∀ f, digitRunsAux nd f [] = [] := by
  intro f
  cases f <;> rfl

/-- A nonempty all-digit string is one single maximal run. -/
theorem digitRuns_all_digits (nd : Char → Bool) : ∀ (f : Nat) (cs : List Char),
    cs.length ≤ f → cs ≠ [] → cs.all nd = true →
    digitRunsAux nd f cs = [cs] := by
  intro f
  induction f with
  | zero =>
    intro cs hlen hne _
    match cs with
    | [] => exact absurd rfl hne
    | c :: cs => simp at hlen
  | succ f _ =>
    intro cs hlen hne hall
    match cs with
    | [] => exact absurd rfl hne
    | c :: cs =>
      simp only [List.all_cons, Bool.and_eq_true] at hall
      have hexact : takeDigits nd (cs ++ []) = (cs, []) :=
        takeDigits_exact nd cs [] hall.2 (by intro c r h; cases h)
      rw [List.append_nil] at hexact
      simp only [digitRunsAux, hall.1, if_pos, hexact, digitRunsAux_nil]

/-- Rust's `u16` parse ignores a leading `+` before a digit string. -/
theorem parseU16_plus {ds : List Char} (hne : ds ≠ [])
    (hd : ds.all isDigitChar = true) :
    parseU16 ('+' :: ds) = parseU16 ds := by
  match ds, hne with
  | d :: rest, _ =>
    have hd1 : isDigitChar d = true := by
      simp only [List.all_cons, Bool.and_eq_true] at hd
      exact hd.1
    have hdp : d ≠ '+' := by
      intro h; rw [h] at hd1; exact absurd hd1 (by decide)
    simp [parseU16, hdp]

/-- If the whole string parses as a `u16` then — for any digit class
containing the ASCII digits — every maximal digit run in it parses to
that same value. -/
theorem digitRuns_of_parse {nd : Char → Bool}
    (hascii : ∀ c, isDigitChar c = true → nd c = true)
    {cs : List Char} {n : Nat} (h : parseU16 cs = some n) :
    ∀ r ∈ digitRuns nd cs, parseU16 r = some n := by
  obtain ⟨ds, hcs, hne, hall, hval, hle⟩ := parseU16_some_structure h
  have hallnd : ds.all nd = true := by
    rw [List.all_eq_true] at hall ⊢
    exact fun c hc => hascii c (hall c hc)
  have hds : digitRunsAux nd ds.length ds = [ds] :=
    digitRuns_all_digits nd ds.length ds le_rfl hne hallnd
  have hpds : parseU16 ds = some n := by
    rw [parseU16_of_digits hne hall, hval, if_pos hle]
  intro r hr
  rcases hcs with hcs | hcs
  · subst hcs
    rw [digitRuns, hds] at hr
    simp only [List.mem_singleton] at hr
    rw [hr]; exact hpds
  · subst hcs
    by_cases hplus : nd '+' = true
    · have hone : digitRuns nd ('+' :: ds) = ['+' :: ds] := by
        apply digitRuns_all_digits nd _ _ le_rfl (by simp)
        simp only [List.all_cons, Bool.and_eq_true]
        exact ⟨hplus, hallnd⟩
      rw [hone] at hr
      simp only [List.mem_singleton] at hr
      rw [hr, parseU16_plus hne hall]
      exact hpds
    · have hplusf : nd '+' = false := by
        cases hnd : nd '+'
        · rfl
        · exact absurd hnd hplus
      have hskip : digitRuns nd ('+' :: ds) = digitRunsAux nd ds.length ds := by
        simp [digitRuns, digitRunsAux, hplusf]
      rw [hskip, hds] at hr
      simp only [List.mem_singleton] at hr
      rw [hr]; exact hpds

/-! ## Lemmas: the allocator search loops -/

namespace VariableAllocator

theorem goodPort_iff (oracle : Nat → Bool) (used : List Nat) (p : Nat) :
    (!used.contains p && oracle p) = true ↔ goodPort oracle used p := by
  simp [goodPort]

theorem portSearch_ok {oracle : Nat → Bool} {used : List Nat} :
    ∀ {f base p : Nat}, portSearch oracle used f base = .ok p →
      base ≤ p ∧ p < base + f ∧ goodPort oracle used p ∧
      ∀ q, base ≤ q → q < p → ¬goodPort oracle used q := by
  intro f
  induction f with
  | zero => intro base p h; simp [portSearch] at h
  | succ f ih =>
    intro base p h
    by_cases hg : (!used.contains base && oracle base) = true
    · rw [portSearch, if_pos hg] at h
      obtain rfl : base = p := Except.ok.inj h
      exact ⟨le_rfl, by omega, (goodPort_iff _ _ _).mp hg, by omega⟩
    · rw [portSearch, if_neg hg] at h
      obtain ⟨h1, h2, h3, h4⟩ := ih h
      refine ⟨by omega, by omega, h3, ?_⟩
      intro q hq1 hq2
      rcases Nat.eq_or_lt_of_le hq1 with rfl | hlt
      · exact fun hg2 => hg ((goodPort_iff _ _ _).mpr hg2)
      · exact h4 q hlt hq2

theorem portSearch_error {oracle : Nat → Bool} {used : List Nat} :
    ∀ {f base : Nat} {e : String}, portSearch oracle used f base = .error e →
      ∀ q, base ≤ q → q < base + f → ¬goodPort oracle used q := by
  intro f
  induction f with
  | zero => intro base e _ q hq1 hq2; omega
  | succ f ih =>
    intro base e h q hq1 hq2
    by_cases hg : (!used.contains base && oracle base) = true
    · rw [portSearch, if_pos hg] at h; cases h
    · rw [portSearch, if_neg hg] at h
      rcases Nat.eq_or_lt_of_le hq1 with rfl | hlt
      · exact fun hg2 => hg ((goodPort_iff _ _ _).mpr hg2)
      · exact ih h q hlt (by omega)

theorem portSearch_completes {oracle : Nat → Bool} {used : List Nat} :
    ∀ {f base p : Nat}, base ≤ p → p < base + f →
      goodPort oracle used p →
      ∃ r, portSearch oracle used f base = .ok r := by
  intro f
  induction f with
  | zero => intro base p h1 h2; omega
  | succ f ih =>
    intro base p h1 h2 h3
    by_cases hg : (!used.contains base && oracle base) = true
    · exact ⟨base, by rw [portSearch, if_pos hg]⟩
    · have hne : base ≠ p := by
        rintro rfl; exact hg ((goodPort_iff _ _ _).mpr h3)
      have := @ih (base + 1) p (by omega) (by omega) h3
      obtain ⟨r, hr⟩ := this
      exact ⟨r, by rw [portSearch, if_neg hg]; exact hr⟩

theorem intSearch_some {used : List Nat} :
    ∀ {f v r : Nat}, v ≤ 65535 → intSearch used f v = some r →
      v ≤ r ∧ r ≤ 65535 ∧ used.contains r = false ∧
      ∀ q, v ≤ q → q < r → used.contains q = true := by
  intro f
  induction f with
  | zero => intro v r _ h; simp [intSearch] at h
  | succ f ih =>
    intro v r hv h
    by_cases hc : used.contains v = true
    · rw [intSearch, if_pos hc] at h
      by_cases hsat : v < 65535
      · have hmin : min (v + 1) 65535 = v + 1 := by omega
        rw [hmin] at h
        obtain ⟨h1, h2, h3, h4⟩ := ih (by omega) h
        refine ⟨by omega, h2, h3, ?_⟩
        intro q hq1 hq2
        rcases Nat.eq_or_lt_of_le hq1 with rfl | hlt
        · exact hc
        · exact h4 q hlt hq2
      · have hveq : v = 65535 := by omega
        subst hveq
        have hmin : min (65535 + 1) 65535 = 65535 := by omega
        rw [hmin] at h
        obtain ⟨h1, h2, h3, _⟩ := ih (le_refl 65535) h
        have : r = 65535 := by omega
        rw [this] at h3
        rw [h3] at hc
        cases hc
    · rw [intSearch, if_neg hc] at h
      obtain rfl : v = r := Option.some_inj.mp h
      exact ⟨le_rfl, hv, by simpa using hc, by omega⟩

theorem intSearch_completes {used : List Nat} :
    ∀ {f v p : Nat}, v ≤ p → p ≤ 65535 → used.contains p = false →
      p - v < f → ∃ r, intSearch used f v = some r := by
  intro f
  induction f with
  | zero => intro v p _ _ _ h; omega
  | succ f ih =>
    intro v p h1 h2 h3 h4
    by_cases hc : used.contains v = true
    · have hne : v ≠ p := by
        rintro rfl; rw [hc] at h3; cases h3
      have hmin : min (v + 1) 65535 = v + 1 := by omega
      obtain ⟨r, hr⟩ := ih (v := v + 1) (p := p) (by omega) h2 h3 (by omega)
      exact ⟨r, by rw [intSearch, if_pos hc, hmin]; exact hr⟩
    · exact ⟨v, by rw [intSearch, if_neg hc]⟩

/-- When every value from the saturated search range is used, the Rust loop
`while used.contains(value) { value = value.saturating_add(1) }` never
terminates. -/
theorem intSearch_saturated_none {used : List Nat} :
    ∀ {f v : Nat}, v ≤ 65535 →
      (∀ q, v ≤ q → q ≤ 65535 → used.contains q = true) →
      intSearch used f v = none := by
  intro f
  induction f with
  | zero => intro v _ _; rfl
  | succ f ih =>
    intro v hv hall
    have hc : used.contains v = true := hall v le_rfl hv
    rw [intSearch, if_pos hc]
    by_cases hsat : v < 65535
    · have hmin : min (v + 1) 65535 = v + 1 := by omega
      rw [hmin]
      exact ih (by omega) (fun q hq1 hq2 => hall q (by omega) hq2)
    · have hveq : v = 65535 := by omega
      subst hveq
      have hmin : min (65535 + 1) 65535 = 65535 := by omega
      rw [hmin]
      exact ih le_rfl hall

/-! ## Lemmas: the used-value scan -/

theorem mem_numbersIn_of_parse {nd : Char → Bool} {s : String} {n : Nat}
    (h : parseU16 s.data = some n) : n ∈ numbersIn nd s := by
  simp [numbersIn, h]

/-- Any maximal digit run whose `u16` parse succeeds is reserved: directly
when the whole-string parse fails (the run-scanning code path), and via the
whole-string value when that parse succeeds (the run then parses to the
same value, as every run of an all-digit string does). -/
theorem mem_numbersIn_of_run {nd : Char → Bool}
    (hascii : ∀ c, isDigitChar c = true → nd c = true)
    {s : String} {r : List Char} {v : Nat}
    (hr : r ∈ digitRuns nd s.data) (hv : parseU16 r = some v) :
    v ∈ numbersIn nd s := by
  unfold numbersIn
  match hp : parseU16 s.data with
  | some m =>
    have := digitRuns_of_parse hascii hp r hr
    rw [hv] at this
    simp [Option.some_inj.mp this]
  | none =>
    simp only [List.mem_filterMap]
    exact ⟨r, hr, hv⟩

theorem mem_used_of_numbersIn {nd : Char → Bool}
    {wts : List (String × WorktreeConfig)}
    {bname vname : String} {rec : WorktreeConfig} {s : String} {n : Nat}
    (hw : (bname, rec) ∈ wts) (hv : (vname, s) ∈ rec.values)
    (hn : n ∈ numbersIn nd s) : n ∈ get_all_used_ports nd wts := by
  unfold get_all_used_ports
  rw [List.mem_flatMap]
  refine ⟨(bname, rec), hw, ?_⟩
  rw [List.mem_flatMap]
  exact ⟨(vname, s), hv, hn⟩

/-- Anything the loops treat as used is really at most 65535. -/
theorem mem_numbersIn_le {nd : Char → Bool} {s : String} {n : Nat}
    (h : n ∈ numbersIn nd s) : n ≤ 65535 := by
  unfold numbersIn at h
  match hp : parseU16 s.data with
  | some m =>
    rw [hp] at h
    simp at h
    obtain ⟨_, _, _, _, hval, hle⟩ := parseU16_some_structure hp
    omega
  | none =>
    rw [hp] at h
    simp only [List.mem_filterMap] at h
    obtain ⟨r, _, hr⟩ := h
    obtain ⟨_, _, _, _, hval, hle⟩ := parseU16_some_structure hr
    omega

end VariableAllocator

namespace VariableAllocator

/-- Characterization of a successful port allocation: the result prints the
least candidate at or above the base that is unused and bindable. -/
theorem allocate_port_component_ok {nd : Char → Bool} {oracle : Nat → Bool}
    {base : Nat}
    {wts : List (String × WorktreeConfig)} {s : String}
    (hbase : base ≤ 65535)
    (h : allocate_port_component nd oracle base wts = .ok s) :
    ∃ p, s = natToString p ∧ base ≤ p ∧ p ≤ 65535 ∧
      goodPort oracle (get_all_used_ports nd wts) p ∧
      ∀ q, base ≤ q → q < p → ¬goodPort oracle (get_all_used_ports nd wts) q := by
  unfold allocate_port_component at h
  match hps : portSearch oracle (get_all_used_ports nd wts) (65536 - base) base with
  | .error e => rw [hps] at h; cases h
  | .ok p =>
    rw [hps] at h
    obtain rfl : natToString p = s := Except.ok.inj h
    obtain ⟨h1, h2, h3, h4⟩ := portSearch_ok hps
    exact ⟨p, rfl, h1, by omega, h3, h4⟩

/-- Characterization of port-space exhaustion: the loop errors exactly when
no candidate up to 65535 is unused and bindable. -/
theorem allocate_port_component_error_iff {nd : Char → Bool}
    {oracle : Nat → Bool} {base : Nat}
    {wts : List (String × WorktreeConfig)} (hbase : base ≤ 65535) :
    (∃ e, allocate_port_component nd oracle base wts = .error e) ↔
      ∀ q, base ≤ q → q ≤ 65535 →
        ¬goodPort oracle (get_all_used_ports nd wts) q := by
  constructor
  · rintro ⟨e, h⟩ q hq1 hq2
    unfold allocate_port_component at h
    match hps : portSearch oracle (get_all_used_ports nd wts) (65536 - base) base with
    | .ok p => rw [hps] at h; cases h
    | .error e2 =>
      exact portSearch_error hps q hq1 (by omega)
  · intro hall
    unfold allocate_port_component
    match hps : portSearch oracle (get_all_used_ports nd wts) (65536 - base) base with
    | .error e => exact ⟨e, rfl⟩
    | .ok p =>
      obtain ⟨h1, h2, h3, _⟩ := portSearch_ok hps
      exact absurd h3 (hall p h1 (by omega))

/-- A successful port allocation never collides with the used-set. -/
theorem allocate_port_component_completes {nd : Char → Bool}
    {oracle : Nat → Bool} {base p : Nat}
    {wts : List (String × WorktreeConfig)}
    (hbase : base ≤ p) (hp : p ≤ 65535)
    (hgood : goodPort oracle (get_all_used_ports nd wts) p) :
    ∃ s, allocate_port_component nd oracle base wts = .ok s := by
  obtain ⟨r, hr⟩ :=
    @portSearch_completes oracle (get_all_used_ports nd wts) (65536 - base) base p
      hbase (by omega) hgood
  exact ⟨natToString r, by unfold allocate_port_component; rw [hr]; rfl⟩

/-- Characterization of a terminating int allocation: the least value at or
above the base absent from the used-set. -/
theorem allocate_int_component_some {nd : Char → Bool} {base v : Nat}
    {wts : List (String × WorktreeConfig)} (hbase : base ≤ 65535)
    (h : allocate_int_component nd base wts = some v) :
    base ≤ v ∧ v ≤ 65535 ∧ (get_all_used_ports nd wts).contains v = false ∧
      ∀ q, base ≤ q → q < v → (get_all_used_ports nd wts).contains q = true :=
  intSearch_some hbase h

theorem allocate_int_component_completes {nd : Char → Bool} {base p : Nat}
    {wts : List (String × WorktreeConfig)}
    (hbase : base ≤ p) (hp : p ≤ 65535)
    (hfree : (get_all_used_ports nd wts).contains p = false) :
    ∃ v, allocate_int_component nd base wts = some v :=
  intSearch_completes hbase hp hfree (by omega)

theorem contains_iff_mem (l : List Nat) (n : Nat) :
    l.contains n = true ↔ n ∈ l := by
  simp [List.contains]

end VariableAllocator

namespace VariableAllocator

theorem intSearch_free {used : List Nat} :
    ∀ {f v r : Nat}, intSearch used f v = some r → used.contains r = false := by
  intro f
  induction f with
  | zero => intro v r h; simp [intSearch] at h
  | succ f ih =>
    intro v r h
    by_cases hc : used.contains v = true
    · rw [intSearch, if_pos hc] at h
      exact ih h
    · rw [intSearch, if_neg hc] at h
      obtain rfl : v = r := Option.some_inj.mp h
      simpa using hc

end VariableAllocator

/-! ## Claims C1, C4, C5, C6 (the allocator) -/

open VariableAllocator in
/-- C1 (counterexample): the claim asserts that values allocated for Port
and Int directives are pairwise distinct across "all branches and all
variable names".  It fails in two ways.  (1) Within one allocation pass
the used-set is computed from the existing worktrees only; values
allocated earlier in the same pass are never added to it, so two
variables with the same `{int:1}` directive allocated in one pass both
receive the value `"1"`.  (2) Across branches, a value committed embedded
in surrounding template text is not reserved as itself — only the merged
digit runs of the stored string are — so after branch `b1` commits
`"a12"` from the template `a1{int:2}` (reserving only 12), branch `b2`
allocates the int value 2 again and renders the identical string
`"a12"`. -/
theorem no_collision_invariant_cex :
    (allocate_values ndAsciiArabic (fun _ => true) (fun _ _ => true)
      (fun _ => true)
      [⟨"A", some (.str "\x7bint:1\x7d"), none, none⟩,
       ⟨"B", some (.str "\x7bint:1\x7d"), none, none⟩]
      "main" [] = some (.ok [("A", "1"), ("B", "1")])) ∧
    (allocate_values ndAsciiArabic (fun _ => true) (fun _ _ => true)
      (fun _ => true)
      [⟨"VAR", some (.str "a1\x7bint:2\x7d"), none, none⟩] "b1" [] =
      some (.ok [("VAR", "a12")])) ∧
    (allocate_values ndAsciiArabic (fun _ => true) (fun _ _ => true)
      (fun _ => true)
      [⟨"VAR", some (.str "a1\x7bint:2\x7d"), none, none⟩] "b2"
      [("b1", ⟨[("VAR", "a12")]⟩)] = some (.ok [("VAR", "a12")])) := by
  refine ⟨by decide, by decide, by decide⟩

open VariableAllocator in
/-- C1 (amended): distinctness does hold across branches for values stored
as bare decimal strings: a Port or Int value allocated against an existing
map that already records a previously allocated value `v1` as its decimal
numeral (as happens when the variable's template is exactly a single
directive) never equals `v1`, because the used-set scan parses the whole
record.  Within a single pass, and against values committed embedded in
template text, duplicates remain possible. -/
theorem no_collision_across_branches (nd : Char → Bool)
    (wts : List (String × WorktreeConfig)) (bname vname : String)
    (rec : WorktreeConfig) (v1 base2 : Nat) (oracle : Nat → Bool)
    (hw : (bname, rec) ∈ wts) (hv : (vname, natToString v1) ∈ rec.values)
    (hv1 : v1 ≤ 65535) (hbase2 : base2 ≤ 65535) :
    (∀ v2, allocate_int_component nd base2 wts = some v2 → v2 ≠ v1) ∧
    (∀ s2, allocate_port_component nd oracle base2 wts = .ok s2 →
      s2 ≠ natToString v1) := by
  have hmem : v1 ∈ get_all_used_ports nd wts :=
    mem_used_of_numbersIn hw hv (mem_numbersIn_of_parse (parseU16_natToString hv1))
  have hcont : (get_all_used_ports nd wts).contains v1 = true :=
    (contains_iff_mem _ _).mpr hmem
  constructor
  · intro v2 h2
    have hfree := intSearch_free h2
    rintro rfl
    rw [hcont] at hfree
    cases hfree
  · intro s2 h2 heq
    obtain ⟨p, hs, _, hple, hgood, _⟩ := allocate_port_component_ok hbase2 h2
    rw [hs] at heq
    obtain rfl : p = v1 := natToString_inj hple hv1 heq
    have hfree := hgood.1
    rw [hcont] at hfree
    cases hfree

open VariableAllocator in
/-- C1 (amended, witness): with branch `b1` holding the previously
allocated value `1`, a later int allocation from base `1` and a later port
allocation from base `1` can never return `1` again. -/
theorem no_collision_across_branches_witness :
    (∀ v2, allocate_int_component ndAsciiArabic 1
        [("b1", ⟨[("X", natToString 1)]⟩)] = some v2 → v2 ≠ 1) ∧
    (∀ s2, allocate_port_component ndAsciiArabic (fun _ => true) 1
        [("b1", ⟨[("X", natToString 1)]⟩)] = .ok s2 → s2 ≠ natToString 1) :=
  no_collision_across_branches ndAsciiArabic
    [("b1", ⟨[("X", natToString 1)]⟩)] "b1" "X"
    ⟨[("X", natToString 1)]⟩ 1 1 (fun _ => true)
    (by simp) (by simp) (by decide) (by decide)

open VariableAllocator in
/-- C4: the port allocation procedure returns (as a string) the first
candidate from the base upward that is absent from the scanned used-set and
bindable per the port oracle, and fails with the overflow error exactly
when no candidate up to 65535 qualifies.  (The procedure only reads the
existing worktree map, so a failure cannot corrupt committed state.) -/
theorem port_allocation_procedure (nd : Char → Bool) (oracle : Nat → Bool)
    (base : Nat)
    (wts : List (String × WorktreeConfig)) (hbase : base ≤ 65535) :
    (∀ s, allocate_port_component nd oracle base wts = .ok s →
      ∃ p, s = natToString p ∧ base ≤ p ∧ p ≤ 65535 ∧
        goodPort oracle (get_all_used_ports nd wts) p ∧
        ∀ q, base ≤ q → q < p →
          ¬goodPort oracle (get_all_used_ports nd wts) q) ∧
    ((∃ e, allocate_port_component nd oracle base wts = .error e) ↔
      ∀ q, base ≤ q → q ≤ 65535 →
        ¬goodPort oracle (get_all_used_ports nd wts) q) := by
  exact ⟨fun s h => allocate_port_component_ok hbase h,
    allocate_port_component_error_iff hbase⟩

open VariableAllocator in
/-- C4 (witness): with port 53000 recorded by an existing branch and an
always-bindable oracle, the procedure returns `"53001"`, which is the least
unused bindable candidate at or above the base 53000. -/
theorem port_allocation_procedure_witness :
    ∃ p, ("53001" : String) = natToString p ∧ 53000 ≤ p ∧ p ≤ 65535 ∧
      goodPort (fun _ => true)
        (get_all_used_ports ndAsciiArabic [("main", ⟨[("P", "53000")]⟩)]) p ∧
      ∀ q, 53000 ≤ q → q < p →
        ¬goodPort (fun _ => true)
          (get_all_used_ports ndAsciiArabic [("main", ⟨[("P", "53000")]⟩)]) q :=
  (port_allocation_procedure ndAsciiArabic (fun _ => true) 53000
    [("main", ⟨[("P", "53000")]⟩)]
    (by decide)).1 "53001" (by decide)

open VariableAllocator in
/-- C5 (counterexample): the claim asserts the Int allocation procedure
terminates "for every base and every existing branch state".  But the
search saturates at 65535, so when an existing record already holds
`"65535"` and the base is 65535, the loop
`while used.contains(value) { value = value.saturating_add(1) }` spins on
65535 forever: the fuelled model returns `none` for every fuel bound. -/
theorem int_allocation_totality_cex :
    intLoopDiverges
      (get_all_used_ports ndAsciiArabic [("b", ⟨[("X", "65535")]⟩)]) 65535 ∧
    allocate_int_component ndAsciiArabic 65535 [("b", ⟨[("X", "65535")]⟩)] =
      none := by
  have hdiv : intLoopDiverges
      (get_all_used_ports ndAsciiArabic [("b", ⟨[("X", "65535")]⟩)]) 65535 := by
    intro f
    apply intSearch_saturated_none le_rfl
    intro q hq1 hq2
    have : q = 65535 := by omega
    subst this
    decide
  exact ⟨hdiv, hdiv 65536⟩

open VariableAllocator in
/-- C5 (amended): whenever some value in `[base, 65535]` is absent from the
used-set, the Int allocation procedure terminates and returns the first
value at or above the base that is absent from the used-set; when every
value of `[base, 65535]` is used, the saturating loop never terminates.
The gap-filling sequence over `{int:1}` (A gets 1, B gets 2, after deleting
A the next branch gets 1 again, and a fourth branch gets 3) holds as
claimed. -/
theorem int_allocation_gap_filling :
    (allocate_values ndAsciiArabic (fun _ => true) (fun _ _ => true)
        (fun _ => true)
        [⟨"INSTANCE", some (.str "\x7bint:1\x7d"), none, none⟩] "branch1" [] =
      some (.ok [("INSTANCE", "1")]) ∧
     allocate_values ndAsciiArabic (fun _ => true) (fun _ _ => true)
        (fun _ => true)
        [⟨"INSTANCE", some (.str "\x7bint:1\x7d"), none, none⟩] "branch2"
        [("branch1", ⟨[("INSTANCE", "1")]⟩)] =
      some (.ok [("INSTANCE", "2")]) ∧
     allocate_values ndAsciiArabic (fun _ => true) (fun _ _ => true)
        (fun _ => true)
        [⟨"INSTANCE", some (.str "\x7bint:1\x7d"), none, none⟩] "branch3"
        [("branch2", ⟨[("INSTANCE", "2")]⟩)] =
      some (.ok [("INSTANCE", "1")]) ∧
     allocate_values ndAsciiArabic (fun _ => true) (fun _ _ => true)
        (fun _ => true)
        [⟨"INSTANCE", some (.str "\x7bint:1\x7d"), none, none⟩] "branch4"
        [("branch2", ⟨[("INSTANCE", "2")]⟩), ("branch3", ⟨[("INSTANCE", "1")]⟩)] =
      some (.ok [("INSTANCE", "3")])) ∧
    (∀ (nd : Char → Bool) (base p : Nat) (wts : List (String × WorktreeConfig)),
      base ≤ p → p ≤ 65535 →
      (get_all_used_ports nd wts).contains p = false →
      ∃ v, allocate_int_component nd base wts = some v ∧ base ≤ v ∧ v ≤ 65535 ∧
        (get_all_used_ports nd wts).contains v = false ∧
        ∀ q, base ≤ q → q < v →
          (get_all_used_ports nd wts).contains q = true) ∧
    (∀ (nd : Char → Bool) (base : Nat) (wts : List (String × WorktreeConfig)),
      base ≤ 65535 →
      (∀ q, base ≤ q → q ≤ 65535 →
        (get_all_used_ports nd wts).contains q = true) →
      intLoopDiverges (get_all_used_ports nd wts) base) := by
  refine ⟨⟨by decide, by decide, by decide, by decide⟩, ?_, ?_⟩
  · intro nd base p wts hbp hp hfree
    obtain ⟨v, hv⟩ := allocate_int_component_completes hbp hp hfree
    obtain ⟨h1, h2, h3, h4⟩ := allocate_int_component_some (by omega) hv
    exact ⟨v, hv, h1, h2, h3, h4⟩
  · intro nd base wts hbase hall f
    exact intSearch_saturated_none hbase hall

open VariableAllocator in
/-- C5 (amended, witness): instantiating the termination part at base 1
with an existing record holding `"1"`: the allocation terminates with the
value 2, the least free value at or above the base. -/
theorem int_allocation_gap_filling_witness :
    ∃ v, allocate_int_component ndAsciiArabic 1 [("b", ⟨[("I", "1")]⟩)] =
        some v ∧
      1 ≤ v ∧ v ≤ 65535 ∧
      (get_all_used_ports ndAsciiArabic [("b", ⟨[("I", "1")]⟩)]).contains v =
        false ∧
      ∀ q, 1 ≤ q → q < v →
        (get_all_used_ports ndAsciiArabic
          [("b", ⟨[("I", "1")]⟩)]).contains q = true :=
  (int_allocation_gap_filling).2.1 ndAsciiArabic 1 2 [("b", ⟨[("I", "1")]⟩)]
    (by decide) (by decide) (by decide)

open VariableAllocator in
/-- C6 (counterexample): the `regex` crate's `\d` in `NUMBER_REGEX` is the
Unicode decimal-digit class `Nd`, so in a stored value such as `4٥6`
(ARABIC-INDIC DIGIT FIVE, U+0665, between two ASCII digits) the single
maximal digit run is the whole three-character text, whose `u16` parse
fails: the scan reserves nothing from the value.  The claim's ASCII
reading would reserve the runs 4 and 6 (second conjunct), yet the int
allocator hands out 4 again (third conjunct).  `ndAsciiArabic` agrees
with `Nd` on every character of the input. -/
theorem collision_scanning_unicode_cex :
    numbersIn ndAsciiArabic "4٥6" = [] ∧
    (digitRuns isDigitChar ("4٥6" : String).data).filterMap parseU16 =
      [4, 6] ∧
    allocate_int_component ndAsciiArabic 4 [("b", ⟨[("V", "4٥6")]⟩)] =
      some 4 := by
  refine ⟨by decide, by decide, by decide⟩

open VariableAllocator in
/-- C6 (amended): for every digit class containing the ASCII digits, the
used-set contains, for every value string in every existing worktree
record, the whole-string `u16` parse when it succeeds and the value of
every maximal digit run whose `u16` parse succeeds (a run containing a
non-ASCII Unicode digit fails that parse and reserves nothing); and
allocating `{port:53000}` when an existing record holds the literal string
`server_53000_v1` can never return `"53000"` — any successful allocation
prints a strictly larger candidate that is the first free, bindable one. -/
theorem collision_scanning_parsed_runs (nd : Char → Bool)
    (hascii : ∀ c, isDigitChar c = true → nd c = true) :
    (∀ (wts : List (String × WorktreeConfig)) (bname vname : String)
        (rec : WorktreeConfig) (s : String) (n : Nat),
      (bname, rec) ∈ wts → (vname, s) ∈ rec.values →
      parseU16 s.data = some n → n ∈ get_all_used_ports nd wts) ∧
    (∀ (wts : List (String × WorktreeConfig)) (bname vname : String)
        (rec : WorktreeConfig) (s : String) (r : List Char) (v : Nat),
      (bname, rec) ∈ wts → (vname, s) ∈ rec.values →
      r ∈ digitRuns nd s.data → parseU16 r = some v →
      v ∈ get_all_used_ports nd wts) ∧
    (∀ (oracle : Nat → Bool) (s2 : String),
      allocate_port_component ndAsciiArabic oracle 53000
        [("existing", ⟨[("SVC", "server_53000_v1")]⟩)] = .ok s2 →
      s2 ≠ "53000" ∧
      ∃ p, s2 = natToString p ∧ 53000 < p ∧ p ≤ 65535 ∧
        goodPort oracle
          (get_all_used_ports ndAsciiArabic
            [("existing", ⟨[("SVC", "server_53000_v1")]⟩)]) p ∧
        ∀ q, 53000 ≤ q → q < p →
          ¬goodPort oracle
            (get_all_used_ports ndAsciiArabic
              [("existing", ⟨[("SVC", "server_53000_v1")]⟩)]) q) := by
  refine ⟨?_, ?_, ?_⟩
  · intro wts bname vname rec s n hw hv hp
    exact mem_used_of_numbersIn hw hv (mem_numbersIn_of_parse hp)
  · intro wts bname vname rec s r v hw hv hr hparse
    exact mem_used_of_numbersIn hw hv (mem_numbersIn_of_run hascii hr hparse)
  · intro oracle s2 h2
    obtain ⟨p, hs, hbp, hple, hgood, hleast⟩ :=
      allocate_port_component_ok (by decide) h2
    have hcont : (get_all_used_ports ndAsciiArabic
        [("existing", ⟨[("SVC", "server_53000_v1")]⟩)]).contains 53000 = true := by
      decide
    have hne : p ≠ 53000 := by
      intro h
      have := hgood.1
      rw [h, hcont] at this
      cases this
    refine ⟨?_, p, hs, by omega, hple, hgood, fun q hq1 hq2 => hleast q hq1 hq2⟩
    intro heq
    rw [heq] at hs
    have h53 : ("53000" : String) = natToString 53000 := by decide
    rw [h53] at hs
    exact hne (natToString_inj hple (by decide) hs.symm)

open VariableAllocator in
/-- C6 (amended, witness): with an always-bindable oracle the allocation
against the `server_53000_v1` record returns `"53001"`: not `"53000"`, and
exactly the first free bindable candidate above the base. -/
theorem collision_scanning_parsed_runs_witness :
    ("53001" : String) ≠ "53000" ∧
    ∃ p, ("53001" : String) = natToString p ∧ 53000 < p ∧ p ≤ 65535 ∧
      goodPort (fun _ => true)
        (get_all_used_ports ndAsciiArabic
          [("existing", ⟨[("SVC", "server_53000_v1")]⟩)]) p ∧
      ∀ q, 53000 ≤ q → q < p →
        ¬goodPort (fun _ => true)
          (get_all_used_ports ndAsciiArabic
            [("existing", ⟨[("SVC", "server_53000_v1")]⟩)]) q :=
  (collision_scanning_parsed_runs ndAsciiArabic
      (fun c h => by simp [ndAsciiArabic, h])).2.2
    (fun _ => true) "53001" (by decide)

namespace VariableAllocator

theorem lookup_append_of_not_mem {α : Type} {name : String} :
    ∀ (acc l : List (String × α)), (∀ p ∈ acc, p.1 ≠ name) →
      List.lookup name (acc ++ l) = List.lookup name l := by
  intro acc
  induction acc with
  | nil => intro l _; rfl
  | cons p acc ih =>
    intro l hacc
    have hne : p.1 ≠ name := hacc p (by simp)
    have hbeq : (name == p.1) = false := by
      simp [hne.symm]
    simp only [List.cons_append, List.lookup, hbeq]
    exact ih l fun q hq => hacc q (by simp [hq])

/-- Whatever the pass accumulates stays as a prefix of the final map. -/
theorem allocate_values_go_prefix
    {nd : Char → Bool}
    {rvalid : String → Bool} {rmatch : String → String → Bool}
    {oracle : Nat → Bool} {branch_name : String}
    {wts : List (String × WorktreeConfig)} :
    ∀ (specs : List VariableConfig) (acc m : List (String × String)),
      allocate_values_go nd rvalid rmatch oracle branch_name wts specs acc =
        some (.ok m) →
      ∃ ext, m = acc ++ ext := by
  intro specs
  induction specs with
  | nil =>
    intro acc m hm
    rw [allocate_values_go] at hm
    obtain rfl : acc = m := Except.ok.inj (Option.some_inj.mp hm)
    exact ⟨[], by simp⟩
  | cons v rest ih =>
    intro acc m hm
    rw [allocate_values_go] at hm
    by_cases hacc : acc.any (fun p => p.1 == v.name) = true
    · rw [if_pos hacc] at hm
      exact ih acc m hm
    · rw [if_neg hacc] at hm
      cases hmb : matches_branch rvalid rmatch v branch_name with
      | error e => rw [hmb] at hm; cases hm
      | ok b =>
        rw [hmb] at hm
        cases b with
        | false => exact ih acc m hm
        | true =>
          cases hav : allocate_variable nd oracle v wts with
          | none => rw [hav] at hm; cases hm
          | some r =>
            rw [hav] at hm
            cases r with
            | error e => cases hm
            | ok val =>
              obtain ⟨ext, hext⟩ := ih (acc ++ [(v.name, val)]) m hm
              exact ⟨(v.name, val) :: ext, by simp [hext]⟩

/-- The central first-match-wins induction: if the pass succeeds and index
`i` is the first spec whose name is the target's and which matches the
branch, then the final map binds that name to exactly the value the spec at
`i` allocates on its own against the existing worktrees. -/
theorem allocate_values_go_first_match
    {nd : Char → Bool}
    {rvalid : String → Bool} {rmatch : String → String → Bool}
    {oracle : Nat → Bool} {branch_name : String}
    {wts : List (String × WorktreeConfig)} :
    ∀ (specs : List VariableConfig) (acc m : List (String × String))
      (i : Nat) (hi : i < specs.length),
      allocate_values_go nd rvalid rmatch oracle branch_name wts specs acc =
        some (.ok m) →
      (∀ p ∈ acc, p.1 ≠ (specs.get ⟨i, hi⟩).name) →
      matches_branch rvalid rmatch (specs.get ⟨i, hi⟩) branch_name = .ok true →
      (∀ j (hj : j < i),
        (specs.get ⟨j, by omega⟩).name = (specs.get ⟨i, hi⟩).name →
        matches_branch rvalid rmatch (specs.get ⟨j, by omega⟩) branch_name ≠
          .ok true) →
      ∃ val, allocate_variable nd oracle (specs.get ⟨i, hi⟩) wts =
          some (.ok val) ∧
        List.lookup (specs.get ⟨i, hi⟩).name m = some val := by
  intro specs
  induction specs with
  | nil => intro acc m i hi; simp at hi
  | cons v rest ih =>
    intro acc m i hi hm hacc hmatch hfirst
    rw [allocate_values_go] at hm
    match i with
    | 0 =>
      have hget : (v :: rest).get ⟨0, hi⟩ = v := rfl
      rw [hget] at hmatch hacc ⊢
      have hanyf : acc.any (fun p => p.1 == v.name) = false := by
        rw [List.any_eq_false]
        intro p hp
        simpa using hacc p hp
      rw [if_neg (by rw [hanyf]; simp)] at hm
      rw [hmatch] at hm
      cases hav : allocate_variable nd oracle v wts with
      | none => rw [hav] at hm; cases hm
      | some r =>
        rw [hav] at hm
        cases r with
        | error e => cases hm
        | ok val =>
          obtain ⟨ext, hext⟩ := allocate_values_go_prefix rest _ m hm
          refine ⟨val, rfl, ?_⟩
          rw [hext, show acc ++ [(v.name, val)] ++ ext =
            acc ++ ((v.name, val) :: ext) by simp,
            lookup_append_of_not_mem acc _ hacc]
          simp [List.lookup]
    | j + 1 =>
      have hj : j < rest.length := by
        simp at hi; omega
      have hget : (v :: rest).get ⟨j + 1, hi⟩ = rest.get ⟨j, hj⟩ := rfl
      rw [hget] at hmatch hacc ⊢
      have hfirst2 : ∀ j2 (hj2 : j2 < j),
          (rest.get ⟨j2, by omega⟩).name = (rest.get ⟨j, hj⟩).name →
          matches_branch rvalid rmatch (rest.get ⟨j2, by omega⟩) branch_name ≠
            .ok true := by
        intro j2 hj2 hname
        exact hfirst (j2 + 1) (by omega) hname
      by_cases haccv : acc.any (fun p => p.1 == v.name) = true
      · rw [if_pos haccv] at hm
        exact ih acc m j hj hm hacc hmatch hfirst2
      · rw [if_neg haccv] at hm
        cases hmb : matches_branch rvalid rmatch v branch_name with
        | error e => rw [hmb] at hm; cases hm
        | ok b =>
          rw [hmb] at hm
          cases b with
          | false => exact ih acc m j hj hm hacc hmatch hfirst2
          | true =>
            have hvne : v.name ≠ (rest.get ⟨j, hj⟩).name := by
              intro heq
              exact hfirst 0 (by omega) heq hmb
            cases hav : allocate_variable nd oracle v wts with
            | none => rw [hav] at hm; cases hm
            | some r =>
              rw [hav] at hm
              cases r with
              | error e => cases hm
              | ok val =>
                refine ih _ m j hj hm ?_ hmatch hfirst2
                intro p hp
                rcases List.mem_append.mp hp with hp | hp
                · exact hacc p hp
                · obtain rfl : p = (v.name, val) := by simpa using hp
                  exact hvne

end VariableAllocator

/-! ## Claim C8 (first-match-wins) -/

open VariableAllocator in
/-- C8: when the pass succeeds, a name's allocated value is the value of
the first spec in declaration order with that name that matches the branch
(absence of a pattern matches unconditionally; pattern search is the regex
oracle); every later spec with that name is ignored, since the value bound
in the output map is computed by that first matching spec alone. -/
theorem first_match_wins (nd : Char → Bool)
    (rvalid : String → Bool) (rmatch : String → String → Bool)
    (oracle : Nat → Bool) (specs : List VariableConfig)
    (branch_name : String) (wts : List (String × WorktreeConfig))
    (m : List (String × String)) (i : Nat) (hi : i < specs.length)
    (hm : allocate_values nd rvalid rmatch oracle specs branch_name wts =
      some (.ok m))
    (hmatch : matches_branch rvalid rmatch (specs.get ⟨i, hi⟩) branch_name =
      .ok true)
    (hfirst : ∀ j (hj : j < i),
      (specs.get ⟨j, by omega⟩).name = (specs.get ⟨i, hi⟩).name →
      matches_branch rvalid rmatch (specs.get ⟨j, by omega⟩) branch_name ≠
        .ok true) :
    ∃ val, allocate_variable nd oracle (specs.get ⟨i, hi⟩) wts =
        some (.ok val) ∧
      List.lookup (specs.get ⟨i, hi⟩).name m = some val :=
  allocate_values_go_first_match specs [] m i hi hm (by simp) hmatch hfirst

open VariableAllocator in
/-- C8 (witness): a branch-specific `ENVIRONMENT = production` spec for
`main` declared before a catch-all `ENVIRONMENT = development` spec: on
branch `main` the pass binds `ENVIRONMENT` to `production`, the first
matching spec's value. -/
theorem first_match_wins_witness :
    ∃ val,
      allocate_variable ndAsciiArabic (fun _ => true)
        ⟨"ENVIRONMENT", some (.str "production"), none, some "main"⟩ [] =
        some (.ok val) ∧
      List.lookup "ENVIRONMENT" [("ENVIRONMENT", "production")] = some val :=
  first_match_wins ndAsciiArabic (fun _ => true) (fun pat s => pat == s)
    (fun _ => true)
    [⟨"ENVIRONMENT", some (.str "production"), none, some "main"⟩,
     ⟨"ENVIRONMENT", some (.str "development"), none, none⟩]
    "main" [] [("ENVIRONMENT", "production")] 0 (by decide)
    (by decide) (by decide)
    (fun j hj _ => absurd hj (by omega))

/-! ## Lemmas: the reconciler -/

namespace SyncModel

theorem lookup_insertA {α : Type} :
    ∀ (m : List (String × α)) (k : String) (v : α),
      List.lookup k (insertA m k v) = some v := by
  intro m k v
  by_cases h : m.any (fun p => p.1 == k) = true
  · rw [insertA, if_pos h]
    induction m with
    | nil => simp at h
    | cons p rest ih =>
      obtain ⟨p1, p2⟩ := p
      rw [List.map_cons]
      by_cases hp : (p1 == k) = true
      · rw [if_pos hp]
        simp [List.lookup]
      · rw [if_neg hp]
        have hk : (k == p1) = false := by
          rw [beq_eq_false_iff_ne]
          intro hkk
          exact hp (by simp [hkk])
        rw [List.lookup, hk]
        apply ih
        simp only [List.any_cons] at h
        rcases Bool.or_eq_true_iff.mp h with h1 | h1
        · exact absurd h1 hp
        · exact h1
  · rw [insertA, if_neg h]
    rw [VariableAllocator.lookup_append_of_not_mem]
    · simp [List.lookup]
    · intro p hp heq
      exact h (List.any_eq_true.mpr ⟨p, hp, by simp [heq]⟩)

theorem filter_markers_nil :
    ∀ (acts : List SyncAction), (∀ a ∈ acts, isRepairMarker a = false) →
      acts.filter isRepairMarker = [] := by
  intro acts h
  induction acts with
  | nil => rfl
  | cons a rest ih =>
    have ha := h a (by simp)
    simp only [List.filter_cons, ha, Bool.false_eq_true, if_false]
    exact ih fun b hb => h b (by simp [hb])

theorem add_or_update_acts {proj : ProjectConfig}
    {wts : List (String × WorktreeConfig)} {name : String}
    {cv : Option (List (String × Nat))}
    {r : Except String (List (String × Nat))}
    {wts2 : List (String × WorktreeConfig)} {acts : List SyncAction}
    (h : add_or_update_worktree proj wts name cv = some (r, wts2, acts)) :
    acts = [] ∨ acts = [.saveBranches] := by
  unfold add_or_update_worktree at h
  cases cv with
  | some custom =>
    dsimp only at h
    split at h
    · simp only [Option.some_inj, Prod.mk.injEq] at h
      exact Or.inl h.2.2.symm
    · simp only [Option.some_inj, Prod.mk.injEq] at h
      exact Or.inr h.2.2.symm
  | none =>
    dsimp only at h
    split at h
    · simp only [Option.some_inj, Prod.mk.injEq] at h
      exact Or.inr h.2.2.symm
    · split at h
      · cases h
      · simp only [Option.some_inj, Prod.mk.injEq] at h
        exact Or.inr h.2.2.symm

theorem add_or_update_acts_no_markers {proj : ProjectConfig}
    {wts : List (String × WorktreeConfig)} {name : String}
    {cv : Option (List (String × Nat))}
    {r : Except String (List (String × Nat))}
    {wts2 : List (String × WorktreeConfig)} {acts : List SyncAction}
    (h : add_or_update_worktree proj wts name cv = some (r, wts2, acts)) :
    ∀ a ∈ acts, isRepairMarker a = false := by
  rcases add_or_update_acts h with rfl | rfl
  · simp
  · intro a ha
    obtain rfl : a = SyncAction.saveBranches := by simpa using ha
    rfl

theorem add_worktree_acts_no_markers {proj : ProjectConfig}
    {wts : List (String × WorktreeConfig)} {name : String}
    {cv : Option (List (String × Nat))}
    {r : Except String (List (String × Nat))}
    {wts2 : List (String × WorktreeConfig)} {acts : List SyncAction}
    (h : add_worktree proj wts name cv = some (r, wts2, acts)) :
    ∀ a ∈ acts, isRepairMarker a = false := by
  have hsb : ∀ a ∈ [SyncAction.saveBranches], isRepairMarker a = false := by
    intro a ha
    obtain rfl : a = SyncAction.saveBranches := by simpa using ha
    rfl
  unfold add_worktree at h
  split at h
  · simp only [Option.some_inj, Prod.mk.injEq] at h
    rw [← h.2.2]; simp
  · cases cv with
    | some custom =>
      dsimp only at h
      split at h
      · simp only [Option.some_inj, Prod.mk.injEq] at h
        rw [← h.2.2]; simp
      · simp only [Option.some_inj, Prod.mk.injEq] at h
        rw [← h.2.2]; exact hsb
    | none =>
      dsimp only at h
      split at h
      · simp only [Option.some_inj, Prod.mk.injEq] at h
        rw [← h.2.2]; exact hsb
      · split at h
        · cases h
        · simp only [Option.some_inj, Prod.mk.injEq] at h
          rw [← h.2.2]; exact hsb

theorem add_main_worktree_acts_no_markers {proj : ProjectConfig}
    {wts : List (String × WorktreeConfig)} {b : String}
    {ports : List (String × Nat)} {wts2 : List (String × WorktreeConfig)}
    {acts : List SyncAction} {errs : List String}
    (h : add_main_worktree proj wts b = some (ports, wts2, acts, errs)) :
    ∀ a ∈ acts, isRepairMarker a = false := by
  unfold add_main_worktree at h
  dsimp only at h
  split at h
  · -- step1 diverged
    cases h
  · rename_i wts1 acts1 errs1 heq1
    -- the first stage emits only config-operation actions
    have hacts1 : ∀ a ∈ acts1, isRepairMarker a = false := by
      split at heq1
      · simp only [Option.some_inj, Prod.mk.injEq] at heq1
        rw [← heq1.2.1]; simp
      · split at heq1
        · cases heq1
        · simp only [Option.some_inj, Prod.mk.injEq] at heq1
          rename_i hop
          rw [← heq1.2.1]
          exact add_or_update_acts_no_markers hop
        · simp only [Option.some_inj, Prod.mk.injEq] at heq1
          rename_i hop
          rw [← heq1.2.1]
          exact add_or_update_acts_no_markers hop
    split at h
    · cases h
    · rename_i hop2
      simp only [Option.some_inj, Prod.mk.injEq] at h
      rw [← h.2.2.1]
      intro a ha
      rcases List.mem_append.mp ha with ha | ha
      · exact hacts1 a ha
      · exact add_or_update_acts_no_markers hop2 a ha
    · rename_i hop2
      simp only [Option.some_inj, Prod.mk.injEq] at h
      rw [← h.2.2.1]
      intro a ha
      rcases List.mem_append.mp ha with ha | ha
      · exact hacts1 a ha
      · exact add_or_update_acts_no_markers hop2 a ha

theorem regen_no_markers (proj : ProjectConfig) (fsExists : List String → Bool)
    (parent branches_dir : List String) (wts : List (String × WorktreeConfig)) :
    ∀ a ∈ regenerate_all_env_files proj fsExists parent branches_dir wts,
      isRepairMarker a = false := by
  intro a ha
  unfold regenerate_all_env_files at ha
  rw [List.mem_flatMap] at ha
  obtain ⟨w, _, ha⟩ := ha
  dsimp only at ha
  split at ha
  · simp at ha
    rw [ha.2]; rfl
  · simp at ha
    rw [ha.2]; rfl

theorem applyOrphans_markers {proj : ProjectConfig} {parent : List String} :
    ∀ (l : List (String × List String)) (wts wts2 : List (String × WorktreeConfig))
      (acts : List SyncAction) (errs : List String),
      applyOrphans proj parent l wts = some (wts2, acts, errs) →
      acts.filter isRepairMarker = l.map (fun p => SyncAction.addOrphan p.1) := by
  intro l
  induction l with
  | nil =>
    intro wts wts2 acts errs h
    rw [applyOrphans] at h
    simp only [Option.some_inj, Prod.mk.injEq] at h
    rw [← h.2.1]
    rfl
  | cons bp rest ih =>
    obtain ⟨b, path⟩ := bp
    intro wts wts2 acts errs h
    rw [applyOrphans] at h
    dsimp only at h
    -- analyze the per-orphan step: it emits no repair markers and at most
    -- one env write
    have hstep : ∀ (portsOpt : Option (List (String × Nat)))
        (wts1 : List (String × WorktreeConfig)) (acts1 : List SyncAction)
        (errs1 : List String),
        (if b == proj.main_branch then
          match add_main_worktree proj wts b with
          | none => none
          | some (ports, wts1, acts1, errs1) =>
            some (some ports, wts1, acts1, errs1)
        else
          match add_worktree proj wts b none with
          | none => none
          | some (.error _, wts1, acts1) =>
            some (none, wts1, acts1, ["Failed to add worktree"])
          | some (.ok ports, wts1, acts1) => some (some ports, wts1, acts1, [])) =
          some (portsOpt, wts1, acts1, errs1) →
        ∀ a ∈ acts1, isRepairMarker a = false := by
      intro portsOpt wts1 acts1 errs1 hs
      split at hs
      · split at hs
        · cases hs
        · rename_i hm
          simp only [Option.some_inj, Prod.mk.injEq] at hs
          rw [← hs.2.2.1]
          exact add_main_worktree_acts_no_markers hm
      · split at hs
        · cases hs
        · rename_i hm
          simp only [Option.some_inj, Prod.mk.injEq] at hs
          rw [← hs.2.2.1]
          exact add_worktree_acts_no_markers hm
        · rename_i hm
          simp only [Option.some_inj, Prod.mk.injEq] at hs
          rw [← hs.2.2.1]
          exact add_worktree_acts_no_markers hm
    split at h
    · cases h
    · rename_i portsOpt wts1 acts1 errs1 hs
      have hacts1 := hstep portsOpt wts1 acts1 errs1 hs
      split at h
      · cases h
      · rename_i wtsr actsr errsr hr
        simp only [Option.some_inj, Prod.mk.injEq] at h
        rw [← h.2.1]
        rw [List.map_cons, List.filter_cons]
        have : isRepairMarker (SyncAction.addOrphan b) = true := rfl
        rw [this]
        simp only [if_true]
        congr 1
        rw [List.filter_append, List.filter_append]
        rw [filter_markers_nil acts1 hacts1]
        have henv : (match portsOpt with
            | none => ([] : List SyncAction)
            | some ports =>
              [SyncAction.envWrite (path ++ [proj.env_file_path]) b ports]).filter
              isRepairMarker = [] := by
          apply filter_markers_nil
          intro a ha
          split at ha
          · simp at ha
          · obtain rfl : a = SyncAction.envWrite _ b _ := by simpa using ha
            rfl
        rw [henv]
        simp only [List.nil_append]
        exact ih wts1 wtsr actsr errsr hr

theorem applyMissing_markers :
    ∀ (l : List String) (wts : List (String × WorktreeConfig)),
      (applyMissing l wts).2.1.filter isRepairMarker =
        l.map SyncAction.removeMissing := by
  intro l
  induction l with
  | nil => intro wts; rfl
  | cons b rest ih =>
    intro wts
    rw [applyMissing]
    dsimp only
    rw [List.map_cons, List.filter_cons]
    have : isRepairMarker (SyncAction.removeMissing b) = true := rfl
    rw [this]
    simp only [if_true]
    congr 1
    rw [List.filter_append]
    have hrm : (remove_worktree wts b).2.2.filter isRepairMarker = [] := by
      apply filter_markers_nil
      intro a ha
      unfold remove_worktree at ha
      split at ha
      · obtain rfl : a = SyncAction.saveBranches := by simpa using ha
        rfl
      · simp at ha
    rw [hrm]
    simp only [List.nil_append]
    exact ih (remove_worktree wts b).2.1

theorem filter_envWrite_nil (p : List String) (b : String)
    (v : List (String × Nat)) :
    List.filter isRepairMarker [SyncAction.envWrite p b v] = [] := rfl

theorem applyMismatches_markers {proj : ProjectConfig}
    {parent branches_dir : List String} :
    ∀ (l : List String) (wts wts2 : List (String × WorktreeConfig))
      (acts : List SyncAction) (errs : List String),
      applyMismatches proj parent branches_dir l wts = some (wts2, acts, errs) →
      acts.filter isRepairMarker = l.map SyncAction.updateMismatch := by
  intro l
  induction l with
  | nil =>
    intro wts wts2 acts errs h
    rw [applyMismatches] at h
    simp only [Option.some_inj, Prod.mk.injEq] at h
    rw [← h.2.1]
    rfl
  | cons b rest ih =>
    intro wts wts2 acts errs h
    rw [applyMismatches] at h
    split at h
    · cases h
    · -- the add_or_update failed: marker, then the operation's actions
      rename_i wts1 acts1 hop
      split at h
      · cases h
      · rename_i wtsr actsr errsr hr
        simp only [Option.some_inj, Prod.mk.injEq] at h
        rw [← h.2.1]
        rw [List.map_cons, List.filter_cons]
        have : isRepairMarker (SyncAction.updateMismatch b) = true := rfl
        rw [this]
        simp only [if_true]
        congr 1
        rw [List.filter_append, filter_markers_nil acts1
          (add_or_update_acts_no_markers hop), List.nil_append]
        exact ih _ wtsr actsr errsr hr
    · -- the add_or_update succeeded: marker, actions, env write
      rename_i ports wts1 acts1 hop
      have hacts1 := add_or_update_acts_no_markers hop
      dsimp only at h
      split at h
      · cases h
      · rename_i wtsr actsr errsr hr
        simp only [Option.some_inj, Prod.mk.injEq] at h
        rw [← h.2.1]
        rw [List.map_cons, List.filter_cons]
        have : isRepairMarker (SyncAction.updateMismatch b) = true := rfl
        rw [this]
        simp only [if_true]
        congr 1
        rw [List.filter_append, List.filter_append,
          filter_markers_nil acts1 hacts1, List.nil_append,
          filter_envWrite_nil, List.nil_append]
        exact ih _ wtsr actsr errsr hr

/-- The fixed apply order: the repair markers of one pass are exactly the
orphaned additions, then the missing removals, then the mismatched
updates, in plan order. -/
theorem apply_sync_changes_markers {proj : ProjectConfig}
    {fsExists : List String → Bool} {parent branches_dir : List String}
    {plan : SyncPlan} {wts wts2 : List (String × WorktreeConfig)}
    {acts : List SyncAction} {errs : List String}
    (h : apply_sync_changes proj fsExists parent branches_dir plan wts =
      some (wts2, acts, errs)) :
    acts.filter isRepairMarker =
      plan.orphaned_worktrees.map (fun p => SyncAction.addOrphan p.1) ++
      plan.missing_worktrees.map SyncAction.removeMissing ++
      plan.config_mismatches.map SyncAction.updateMismatch := by
  unfold apply_sync_changes at h
  split at h
  · cases h
  · rename_i wts1 acts1 errs1 h1
    dsimp only at h
    split at h
    · cases h
    · rename_i wts3 acts3 errs3 h3
      simp only [Option.some_inj, Prod.mk.injEq] at h
      rw [← h.2.1]
      rw [List.filter_append, List.filter_append, List.filter_append,
        List.filter_append]
      rw [applyOrphans_markers plan.orphaned_worktrees wts wts1 acts1 errs1 h1]
      rw [applyMissing_markers plan.missing_worktrees wts1]
      rw [applyMismatches_markers plan.config_mismatches _ wts3 acts3 errs3 h3]
      rw [filter_markers_nil _ (regen_no_markers proj fsExists parent
        branches_dir wts3)]
      have : ([SyncAction.saveAll]).filter isRepairMarker = [] := rfl
      rw [this]
      simp

end SyncModel

namespace SyncModel

theorem add_or_update_custom_ok {proj : ProjectConfig}
    {wts : List (String × WorktreeConfig)} {name : String}
    {custom r : List (String × Nat)} {wts2 : List (String × WorktreeConfig)}
    {acts : List SyncAction}
    (h : add_or_update_worktree proj wts name (some custom) =
      some (.ok r, wts2, acts)) :
    r = custom ∧ wts2 = insertA wts name ⟨custom⟩ := by
  unfold add_or_update_worktree at h
  dsimp only at h
  split at h
  · simp at h
  · simp only [Option.some_inj, Prod.mk.injEq] at h
    exact ⟨(Except.ok.inj h.1).symm, h.2.1.symm⟩

/-- When the main branch is (re)installed without a recorded error, it
receives exactly the literal configured base values, and its record in the
resulting state is exactly that map. -/
theorem add_main_worktree_literal {proj : ProjectConfig}
    {wts : List (String × WorktreeConfig)} {b : String}
    {ports : List (String × Nat)} {wts2 : List (String × WorktreeConfig)}
    {acts : List SyncAction} {errs : List String}
    (h : add_main_worktree proj wts b = some (ports, wts2, acts, errs))
    (herrs : errs = []) :
    ports = proj.vars.map (fun v => (v.name, v.default_value)) ∧
    List.lookup b wts2 = some ⟨ports⟩ := by
  unfold add_main_worktree at h
  dsimp only at h
  split at h
  · cases h
  · rename_i wts1 acts1 errs1 heq1
    split at h
    · cases h
    · -- the final install errored: the error list cannot be empty
      simp only [Option.some_inj, Prod.mk.injEq] at h
      exfalso
      have := h.2.2.2
      rw [herrs] at this
      exact absurd this (by simp)
    · rename_i p2 wtsx actsx hop2
      simp only [Option.some_inj, Prod.mk.injEq] at h
      obtain ⟨hr, hw⟩ := add_or_update_custom_ok hop2
      have hports : ports = proj.vars.map fun v => (v.name, v.default_value) := by
        rw [← h.1, hr]
      refine ⟨hports, ?_⟩
      rw [← h.2.1, hw, hports]
      exact lookup_insertA wts1 b ⟨proj.vars.map fun v => (v.name, v.default_value)⟩

end SyncModel

/-! ## Claims C2, C3, C7 (the reconciler) -/

open SyncModel in
/-- C2: the claim (and the spec's idempotence requirement) fails on the
code.  A branch that was deleted externally while the variable list also
changed is in both the missing set and the mismatched set of one pass: the
pass removes it, then the mismatched-update loop re-adds it with fresh
values, so the second reconcile again finds it missing — a non-empty diff,
a mutation and a removal/re-addition cycle on every subsequent run.  Here:
project variable `P`, externally deleted branch `gone` whose record still
carries a stale variable `OLD`; the first pass ends with `gone` re-added
(value 8001), and the second pass's plan lists `gone` as missing again. -/
theorem reconcile_readds_missing_mismatched_branch :
    (SyncModel.sync false (fun _ => true)
        [⟨some "main", ["root"], false, false⟩] ["root"]
        ⟨[⟨"P", 8000⟩], "main", "branches", "env"⟩
        [("main", ⟨[("P", 8000)]⟩),
         ("gone", ⟨[("P", 8001), ("OLD", 9000)]⟩)]).map (fun r => r.1) =
      some [("main", ⟨[("P", 8000)]⟩), ("gone", ⟨[("P", 8001)]⟩)] ∧
    SyncModel.analyze_sync_needs ⟨[⟨"P", 8000⟩], "main", "branches", "env"⟩
        [("main", ⟨[("P", 8000)]⟩), ("gone", ⟨[("P", 8001)]⟩)]
        [⟨some "main", ["root"], false, false⟩] ["root", "branches"] =
      ⟨[], ["gone"], []⟩ ∧
    (SyncModel.analyze_sync_needs ⟨[⟨"P", 8000⟩], "main", "branches", "env"⟩
        [("main", ⟨[("P", 8000)]⟩), ("gone", ⟨[("P", 8001)]⟩)]
        [⟨some "main", ["root"], false, false⟩]
        ["root", "branches"]).needs_changes = true ∧
    (SyncModel.sync false (fun _ => true)
        [⟨some "main", ["root"], false, false⟩] ["root"]
        ⟨[⟨"P", 8000⟩], "main", "branches", "env"⟩
        [("main", ⟨[("P", 8000)]⟩), ("gone", ⟨[("P", 8001)]⟩)]).map (fun r => r.1) =
      some [("main", ⟨[("P", 8000)]⟩)] := by
  exact ⟨by decide, by decide, by decide, by decide⟩

open SyncModel in
/-- C3: within one non-dry-run pass the repairs are announced and applied
in the fixed order orphaned-additions, missing-removals,
mismatched-updates; and a main-branch installation that records no error
receives exactly the literal configured base values.  (The claim's further
assertion that *every* holder of a base value is reallocated first is
refuted separately: only the first holder found is.) -/
theorem reconciliation_order_and_main_privilege :
    (∀ (proj : ProjectConfig) (fsExists : List String → Bool)
      (parent branches_dir : List String) (plan : SyncPlan)
      (wts wts2 : List (String × SyncModel.WorktreeConfig)) (acts : List SyncAction)
      (errs : List String),
      apply_sync_changes proj fsExists parent branches_dir plan wts =
        some (wts2, acts, errs) →
      acts.filter isRepairMarker =
        plan.orphaned_worktrees.map (fun p => SyncAction.addOrphan p.1) ++
        plan.missing_worktrees.map SyncAction.removeMissing ++
        plan.config_mismatches.map SyncAction.updateMismatch) ∧
    (∀ (proj : ProjectConfig) (wts : List (String × SyncModel.WorktreeConfig))
      (b : String) (ports : List (String × Nat))
      (wts2 : List (String × SyncModel.WorktreeConfig)) (acts : List SyncAction)
      (errs : List String),
      add_main_worktree proj wts b = some (ports, wts2, acts, errs) →
      errs = [] →
      ports = proj.vars.map (fun v => (v.name, v.default_value)) ∧
      List.lookup b wts2 = some ⟨ports⟩) :=
  ⟨fun _ _ _ _ _ _ _ _ _ h => apply_sync_changes_markers h,
   fun _ _ _ _ _ _ _ h herrs => add_main_worktree_literal h herrs⟩

open SyncModel in
/-- C3 (counterexample): the claim says every branch holding any of the
base values is reallocated before main is installed.  With two squatters
(`b1` holds base value 100, `b2` holds base value 200) only the first
found, `b1`, is reallocated; `b2` keeps its base value, the main install
then fails with a recorded collision error, and main gets no record at
all. -/
theorem main_privilege_single_reassignment_cex :
    SyncModel.add_main_worktree
      ⟨[⟨"A", 100⟩, ⟨"B", 200⟩], "main", "branches", "env"⟩
      [("b1", ⟨[("A", 100)]⟩), ("b2", ⟨[("A", 200)]⟩)] "main" =
      some ([], [("b1", ⟨[("A", 101), ("B", 201)]⟩), ("b2", ⟨[("A", 200)]⟩)],
        [SyncAction.saveBranches], ["Failed to add main worktree"]) ∧
    List.lookup "main"
      [("b1", SyncModel.WorktreeConfig.mk [("A", 101), ("B", 201)]),
       ("b2", SyncModel.WorktreeConfig.mk [("A", 200)])] = none := by
  exact ⟨by decide, by decide⟩

open SyncModel in
/-- C3 (witness): instantiating both parts.  A plan with one missing
branch produces exactly the removal marker; a single-squatter main install
succeeds with the literal base values and records main's values exactly. -/
theorem reconciliation_order_and_main_privilege_witness :
    ([SyncAction.removeMissing "gone", SyncAction.saveBranches,
        SyncAction.saveAll].filter isRepairMarker =
      ([] : List (String × List String)).map (fun p => SyncAction.addOrphan p.1) ++
      ["gone"].map SyncAction.removeMissing ++
      ([] : List String).map SyncAction.updateMismatch) ∧
    (([("A", 100)] : List (String × Nat)) =
      ([⟨"A", 100⟩] : List SyncModel.VariableConfig).map (fun v => (v.name, v.default_value)) ∧
     List.lookup "main"
       [("b1", SyncModel.WorktreeConfig.mk [("A", 101)]),
        ("main", SyncModel.WorktreeConfig.mk [("A", 100)])] =
       some ⟨[("A", 100)]⟩) :=
  ⟨reconciliation_order_and_main_privilege.1
      ⟨[⟨"P", 8000⟩], "main", "branches", "env"⟩ (fun _ => false) ["root"]
      ["root", "branches"] ⟨[], ["gone"], []⟩ [("gone", ⟨[("P", 8000)]⟩)] []
      [SyncAction.removeMissing "gone", SyncAction.saveBranches,
        SyncAction.saveAll] [] (by decide),
   reconciliation_order_and_main_privilege.2
      ⟨[⟨"A", 100⟩], "main", "branches", "env"⟩ [("b1", ⟨[("A", 100)]⟩)] "main"
      [("A", 100)]
      [("b1", ⟨[("A", 101)]⟩), ("main", ⟨[("A", 100)]⟩)]
      [SyncAction.saveBranches, SyncAction.saveBranches] [] (by decide) rfl⟩

namespace SyncModel

theorem update_env_files_shape {proj : ProjectConfig}
    {fsExists : List String → Bool} {parent branches_dir : List String}
    {wts : List (String × WorktreeConfig)} :
    ∀ a ∈ update_env_files proj fsExists parent branches_dir wts,
      ∃ p b vals, a = SyncAction.envWrite p b vals := by
  intro a ha
  unfold update_env_files at ha
  rw [List.mem_flatMap] at ha
  obtain ⟨w, _, ha⟩ := ha
  dsimp only at ha
  split at ha
  · simp at ha
    exact ⟨_, _, _, ha.2⟩
  · simp at ha
    exact ⟨_, _, _, ha.2⟩

end SyncModel

open SyncModel in
/-- C7 (amended): a dry-run reconcile never mutates BranchesState, records
no errors, and emits no actions other than environment-file writes; when
the plan is non-empty it emits nothing at all.  But when the plan is empty
the zero-diff path regenerates environment files before the dry-run check
is ever reached, so dry run does rewrite env files (see the
counterexample). -/
theorem dry_run_no_state_mutation
    (fsExists : List String → Bool) (discovered : List DiscoveredWorktree)
    (parent : List String) (proj : ProjectConfig)
    (wts wts2 : List (String × SyncModel.WorktreeConfig))
    (acts : List SyncAction) (errs : List String)
    (h : sync true fsExists discovered parent proj wts =
      some (wts2, acts, errs)) :
    wts2 = wts ∧ errs = [] ∧
    (∀ a ∈ acts, ∃ p b vals, a = SyncAction.envWrite p b vals) ∧
    ((analyze_sync_needs proj wts discovered
        (parent ++ [proj.branches_dir])).needs_changes = true → acts = []) := by
  unfold sync at h
  dsimp only at h
  split at h
  · rename_i hplan
    simp only [Option.some_inj, Prod.mk.injEq] at h
    obtain ⟨h1, h2, h3⟩ := h
    refine ⟨h1.symm, h3.symm, ?_, ?_⟩
    · intro a ha
      rw [← h2] at ha
      exact update_env_files_shape a ha
    · intro hn
      rw [hn] at hplan
      exact absurd hplan (by decide)
  · split at h
    · simp only [Option.some_inj, Prod.mk.injEq] at h
      exact ⟨h.1.symm, h.2.2.symm, by rw [← h.2.1]; simp, fun _ => h.2.1.symm⟩
    · rename_i hd
      exact absurd rfl hd

open SyncModel in
/-- C7 (counterexample): the claim says a dry-run leaves every environment
file unchanged for every starting state.  On a state whose plan is empty,
`sync` regenerates env files before it ever consults the dry-run flag: the
dry run emits a (non-empty) env-file write, overwriting whatever is on
disk with the current state. -/
theorem dry_run_writes_env_cex :
    SyncModel.sync true (fun _ => true)
      [⟨some "main", ["root"], false, false⟩] ["root"]
      ⟨[⟨"P", 8000⟩], "main", "branches", "env"⟩
      [("main", ⟨[("P", 8000)]⟩)] =
      some ([("main", ⟨[("P", 8000)]⟩)],
        [SyncAction.envWrite ["root", "env"] "main" [("P", 8000)]], []) ∧
    ([SyncAction.envWrite ["root", "env"] "main" [("P", 8000)]] :
      List SyncAction) ≠ [] := by
  exact ⟨by decide, by decide⟩

open SyncModel in
/-- C7 (amended, witness): a dry run over a state with a missing branch
(`gone` recorded but no working copy discovered) returns the state
untouched and performs nothing. -/
theorem dry_run_no_state_mutation_witness :
    ([("gone", SyncModel.WorktreeConfig.mk [("P", 8000)])] :
        List (String × SyncModel.WorktreeConfig)) =
      [("gone", SyncModel.WorktreeConfig.mk [("P", 8000)])] ∧
    ([] : List String) = [] ∧
    (∀ a ∈ ([] : List SyncAction), ∃ p b vals, a = SyncAction.envWrite p b vals) ∧
    ((analyze_sync_needs ⟨[⟨"P", 8000⟩], "main", "branches", "env"⟩
        [("gone", ⟨[("P", 8000)]⟩)] [] ["root", "branches"]).needs_changes =
          true → ([] : List SyncAction) = []) :=
  dry_run_no_state_mutation (fun _ => true) [] ["root"]
    ⟨[⟨"P", 8000⟩], "main", "branches", "env"⟩
    [("gone", ⟨[("P", 8000)]⟩)] [("gone", ⟨[("P", 8000)]⟩)] [] []
    (by decide)

/-! ## Lemmas: the template scanner -/

/-- A digit class avoiding the opening brace never eats one (the true
Unicode class `Nd` contains neither brace). -/
theorem ndchar_ne_brace {nd : Char → Bool} (hlb : nd '{' = false) {c : Char}
    (h : nd c = true) : c ≠ '{' := by
  intro hc
  rw [hc, hlb] at h
  cases h

/-- Inside a directive's text, `{` occurs only as the very first
character. -/
theorem dirText_no_brace_interior {nd : Char → Bool} (hlb : nd '{' = false)
    {k : DirKind} {ds : List Char}
    (hds : ds.all nd = true) :
    ∀ x y, dirText k ds = x ++ '{' :: y → x = [] := by
  intro x y hxy
  match x with
  | [] => rfl
  | c :: x2 =>
    exfalso
    have hmem : '{' ∈ x2 ++ '{' :: y := by simp
    cases k with
    | port =>
      simp only [dirText, List.cons_append] at hxy
      obtain ⟨rfl, htail⟩ := List.cons.inj hxy
      rw [← htail] at hmem
      simp only [List.mem_cons, List.mem_append, List.mem_singleton] at hmem
      rcases hmem with h | h | h | h | h | hm | hm
      · exact absurd h (by decide)
      · exact absurd h (by decide)
      · exact absurd h (by decide)
      · exact absurd h (by decide)
      · exact absurd h (by decide)
      · have := List.all_eq_true.mp hds _ hm
        exact ndchar_ne_brace hlb this rfl
      · exact absurd hm (by decide)
    | int =>
      simp only [dirText, List.cons_append] at hxy
      obtain ⟨rfl, htail⟩ := List.cons.inj hxy
      rw [← htail] at hmem
      simp only [List.mem_cons, List.mem_append, List.mem_singleton] at hmem
      rcases hmem with h | h | h | h | hm | hm
      · exact absurd h (by decide)
      · exact absurd h (by decide)
      · exact absurd h (by decide)
      · exact absurd h (by decide)
      · have := List.all_eq_true.mp hds _ hm
        exact ndchar_ne_brace hlb this rfl
      · exact absurd hm (by decide)

/-- Forward characterization of a directive match. -/
theorem matchDirective_some {nd : Char → Bool} {cs : List Char} {k : DirKind}
    {ds rem : List Char}
    (h : matchDirective nd cs = some (k, ds, rem)) :
    cs = dirText k ds ++ rem ∧ ds ≠ [] ∧ ds.all nd = true := by
  unfold matchDirective at h
  split at h
  · rename_i rest
    split at h
    · cases h
    · rename_i ds0 rest2 hne0 htd
      obtain ⟨hk, hds, hrem⟩ : DirKind.port = k ∧ ds0 = ds ∧ rest2 = rem := by
        simpa using h
      subst hk; subst hds; subst hrem
      have hsplit := takeDigits_append_eq nd rest
      rw [htd] at hsplit
      have hall : ds0.all nd = true := by
        have := takeDigits_all nd rest
        rw [htd] at this
        exact this
      refine ⟨?_, hne0, hall⟩
      simp only [dirText, List.cons_append, List.append_assoc]
      simp [← hsplit]
    · cases h
  · rename_i rest
    split at h
    · cases h
    · rename_i ds0 rest2 hne0 htd
      obtain ⟨hk, hds, hrem⟩ : DirKind.int = k ∧ ds0 = ds ∧ rest2 = rem := by
        simpa using h
      subst hk; subst hds; subst hrem
      have hsplit := takeDigits_append_eq nd rest
      rw [htd] at hsplit
      have hall : ds0.all nd = true := by
        have := takeDigits_all nd rest
        rw [htd] at this
        exact this
      refine ⟨?_, hne0, hall⟩
      simp only [dirText, List.cons_append, List.append_assoc]
      simp [← hsplit]
    · cases h
  · cases h

/-- Backward: a directive's literal text always matches (the digit class
never contains the closing brace). -/
theorem matchDirective_of_dirText {nd : Char → Bool} (hrb : nd '}' = false)
    {k : DirKind} {ds b : List Char}
    (hne : ds ≠ []) (hall : ds.all nd = true) :
    matchDirective nd (dirText k ds ++ b) = some (k, ds, b) := by
  have htd : takeDigits nd (ds ++ '}' :: b) = (ds, '}' :: b) :=
    takeDigits_exact nd ds ('}' :: b) hall
      (by intro c r h; obtain ⟨rfl, -⟩ := List.cons.inj h; exact hrb)
  match ds, hne with
  | d :: ds2, _ =>
    have hre : ((d :: ds2) ++ ['}']) ++ b = (d :: ds2) ++ '}' :: b := by simp
    cases k with
    | port =>
      show matchDirective nd
        ('{' :: 'p' :: 'o' :: 'r' :: 't' :: ':' :: (((d :: ds2) ++ ['}']) ++ b)) = _
      rw [hre]
      simp only [matchDirective]
      rw [htd]
      rfl
    | int =>
      show matchDirective nd
        ('{' :: 'i' :: 'n' :: 't' :: ':' :: (((d :: ds2) ++ ['}']) ++ b)) = _
      rw [hre]
      simp only [matchDirective]
      rw [htd]
      rfl

theorem dirText_length_pos (k : DirKind) (ds : List Char) :
    0 < (dirText k ds).length := by
  cases k <;> simp [dirText]

theorem matchDirective_shrinks {nd : Char → Bool} {cs : List Char} {k : DirKind}
    {ds rem : List Char} (h : matchDirective nd cs = some (k, ds, rem)) :
    rem.length < cs.length := by
  obtain ⟨hcs, -, -⟩ := matchDirective_some h
  rw [hcs, List.length_append]
  have := dirText_length_pos k ds
  omega

/-- Every scanner entry stands at an occurrence of its directive text. -/
theorem scan_entry_decomp {nd : Char → Bool} :
    ∀ (f : Nat) (cs : List Char) (pos : Nat) (k : DirKind)
      (ds : List Char) (st en : Nat),
      (k, ds, st, en) ∈ scanAux nd f cs pos →
      (∃ a b, cs = a ++ dirText k ds ++ b) ∧ ds ≠ [] ∧
        ds.all nd = true := by
  intro f
  induction f with
  | zero => intro cs pos k ds st en h; simp [scanAux] at h
  | succ f ih =>
    intro cs pos k ds st en h
    match cs with
    | [] => simp [scanAux] at h
    | c :: cs2 =>
      rw [scanAux] at h
      cases hmd : matchDirective nd (c :: cs2) with
      | none =>
        rw [hmd] at h
        obtain ⟨⟨a, b, hab⟩, hne, hall⟩ := ih cs2 (pos + 1) k ds st en h
        exact ⟨⟨c :: a, b, by simp [hab]⟩, hne, hall⟩
      | some r =>
        obtain ⟨k0, ds0, rem⟩ := r
        rw [hmd] at h
        obtain ⟨hcs, hne0, hall0⟩ := matchDirective_some hmd
        simp only [List.mem_cons] at h
        rcases h with h | h
        · obtain ⟨rfl, rfl, -, -⟩ : k0 = k ∧ ds0 = ds ∧ _ := by
            simpa using h.symm
          exact ⟨⟨[], rem, by simpa using hcs⟩, hne0, hall0⟩
        · obtain ⟨⟨a, b, hab⟩, hne, hall⟩ := ih rem _ k ds st en h
          exact ⟨⟨dirText k0 ds0 ++ a, b, by rw [hcs, hab]; simp⟩, hne, hall⟩

/-- Every occurrence of a directive text in the string is found by the
scanner (no directive is skipped; the digit class contains no brace). -/
theorem scan_finds_occurrence {nd : Char → Bool}
    (hlb : nd '{' = false) (hrb : nd '}' = false) :
    ∀ (f : Nat) (cs : List Char) (pos : Nat) (a : List Char) (k : DirKind)
      (ds b : List Char),
      cs.length ≤ f → cs = a ++ dirText k ds ++ b → ds ≠ [] →
      ds.all nd = true →
      ∃ st en, (k, ds, st, en) ∈ scanAux nd f cs pos := by
  intro f
  induction f with
  | zero =>
    intro cs pos a k ds b hlen hcs hne hall
    have hpos : 0 < (dirText k ds).length := dirText_length_pos k ds
    rw [hcs, List.length_append, List.length_append] at hlen
    omega
  | succ f ih =>
    intro cs pos a k ds b hlen hcs hne hall
    match a with
    | [] =>
      simp only [List.nil_append] at hcs
      have hmd : matchDirective nd cs = some (k, ds, b) := by
        rw [hcs]
        exact matchDirective_of_dirText hrb hne hall
      match cs, hcs with
      | c :: cs2, _ =>
        rw [scanAux, hmd]
        exact ⟨pos, pos + ((c :: cs2).length - b.length), by simp⟩
    | c :: a2 =>
      have hcs2 : ∃ cs2, cs = c :: cs2 ∧ cs2 = a2 ++ dirText k ds ++ b := by
        rw [hcs]; exact ⟨_, rfl, rfl⟩
      obtain ⟨cs2, rfl, hcs2⟩ := hcs2
      rw [scanAux]
      cases hmd : matchDirective nd (c :: cs2) with
      | none =>
        have hlen2 : cs2.length ≤ f := by
          simp at hlen; omega
        obtain ⟨st, en, hmem⟩ := ih cs2 (pos + 1) a2 k ds b hlen2 hcs2 hne hall
        exact ⟨st, en, hmem⟩
      | some r =>
        obtain ⟨k0, ds0, rem⟩ := r
        obtain ⟨hcs0, hne0, hall0⟩ := matchDirective_some hmd
        have hrlen : rem.length ≤ f := by
          have := matchDirective_shrinks hmd
          omega
        -- compare the two decompositions of the string
        have hcomb : (c :: a2) ++ (dirText k ds ++ b) = dirText k0 ds0 ++ rem := by
          rw [← hcs0]
          simp [hcs2]
        rcases List.append_eq_append_iff.mp hcomb with ⟨x, hx1, hx2⟩ | ⟨x, hx1, hx2⟩
        · -- dirText k0 ds0 = (c :: a2) ++ x
          cases x with
          | nil =>
            -- the found match text is exactly c :: a2; the occurrence opens rem
            rw [List.nil_append] at hx2
            obtain ⟨st, en, hmem⟩ := ih rem (pos + ((c :: cs2).length - rem.length))
              [] k ds b hrlen (by simpa using hx2.symm) hne hall
            refine ⟨st, en, List.mem_cons_of_mem _ ?_⟩
            simpa using hmem
          | cons x1 x2 =>
            -- a brace strictly inside the found directive text: impossible
            exfalso
            obtain ⟨t, ht⟩ : ∃ t, dirText k ds ++ b = '{' :: t := by
              cases k <;> exact ⟨_, rfl⟩
            have hx2b : ('{' : Char) :: t = x1 :: (x2 ++ rem) := by
              rw [← ht, hx2]; simp
            obtain ⟨hx1c, -⟩ := List.cons.inj hx2b
            have hprem : dirText k0 ds0 = (c :: a2) ++ '{' :: x2 := by
              rw [hx1, ← hx1c]
            have := dirText_no_brace_interior hlb hall0 (c :: a2) x2 hprem
            exact absurd this (by simp)
        · -- the found match is a prefix of a: the occurrence is inside rem
          obtain ⟨st, en, hmem⟩ := ih rem (pos + ((c :: cs2).length - rem.length))
            x k ds b hrlen (by rw [hx2, List.append_assoc]) hne hall
          refine ⟨st, en, List.mem_cons_of_mem _ ?_⟩
          simpa using hmem

theorem buildComponents_ok :
    ∀ (l : List RawMatch) (comps : List TemplateComponent),
      buildComponents l = .ok comps → comps = l.map rawComp := by
  intro l
  induction l with
  | nil =>
    intro comps h
    simp only [buildComponents] at h
    simp [← Except.ok.inj h]
  | cons r rest ih =>
    obtain ⟨k, ds, st, en⟩ := r
    intro comps h
    simp only [buildComponents] at h
    split at h
    · rename_i v hv
      split at h
      · rename_i comps2 hrest
        rw [List.map_cons, ← Except.ok.inj h, ih comps2 hrest]
        cases k <;> simp [rawComp, hv]
      · cases h
    · cases h

theorem buildComponents_error_of_bad :
    ∀ (l : List RawMatch) (r : RawMatch), r ∈ l → parseU16 r.2.1 = none →
      ∃ e, buildComponents l = .error e := by
  intro l
  induction l with
  | nil => intro r hr; simp at hr
  | cons q rest ih =>
    obtain ⟨k, ds, st, en⟩ := q
    intro r hr hbad
    simp only [buildComponents]
    match hds : parseU16 ds with
    | some v =>
      dsimp only
      rcases List.mem_cons.mp hr with rfl | hr
      · have hbad2 : parseU16 ds = none := hbad
        rw [hbad2] at hds
        cases hds
      · obtain ⟨e, he⟩ := ih r hr hbad
        rw [he]
        exact ⟨e, rfl⟩
    | none =>
      exact ⟨_, rfl⟩

theorem buildComponents_bad_of_error :
    ∀ (l : List RawMatch) (e : String), buildComponents l = .error e →
      ∃ r ∈ l, parseU16 r.2.1 = none := by
  intro l
  induction l with
  | nil => intro e h; rw [buildComponents] at h; cases h
  | cons q rest ih =>
    obtain ⟨k, ds, st, en⟩ := q
    intro e h
    simp only [buildComponents] at h
    split at h
    · split at h
      · cases h
      · rename_i e2 hrest
        obtain ⟨r, hr, hbad⟩ := ih e2 hrest
        exact ⟨r, by simp [hr], hbad⟩
    · rename_i hds
      exact ⟨(k, ds, st, en), by simp, hds⟩

/-! ### Digit-class locality

The scanners consult the digit class only at characters of their input:
any two classes that agree on the input compute the same result.  This is
what makes evaluating the model at the concrete fragment `ndAsciiArabic`
compute the program's result on inputs whose characters the fragment
classifies as the true Unicode class `Nd` does. -/

theorem takeDigits_congr {nd nd' : Char → Bool} :
    ∀ cs : List Char, (∀ c ∈ cs, nd c = nd' c) →
      takeDigits nd cs = takeDigits nd' cs := by
  intro cs
  induction cs with
  | nil => intro _; rfl
  | cons c cs ih =>
    intro h
    have hc : nd c = nd' c := h c (by simp)
    have ht := ih (fun d hd => h d (by simp [hd]))
    unfold takeDigits
    rw [hc, ht]

theorem digitRunsAux_congr {nd nd' : Char → Bool} :
    ∀ (f : Nat) (cs : List Char), (∀ c ∈ cs, nd c = nd' c) →
      digitRunsAux nd f cs = digitRunsAux nd' f cs := by
  intro f
  induction f with
  | zero => intro cs _; rfl
  | succ f ih =>
    intro cs h
    match cs with
    | [] => rfl
    | c :: cs2 =>
      have hc : nd c = nd' c := h c (by simp)
      have hcs2 : ∀ d ∈ cs2, nd d = nd' d := fun d hd => h d (by simp [hd])
      have ht := takeDigits_congr cs2 hcs2
      unfold digitRunsAux
      rw [hc, ht]
      by_cases hnd : nd' c = true
      · rw [if_pos hnd, if_pos hnd]
        congr 1
        apply ih
        intro d hd
        apply hcs2
        have := takeDigits_append_eq nd' cs2
        rw [← this]
        exact List.mem_append_right _ hd
      · rw [if_neg hnd, if_neg hnd]
        exact ih cs2 hcs2

theorem matchDirective_congr {nd nd' : Char → Bool} :
    ∀ cs : List Char, (∀ c ∈ cs, nd c = nd' c) →
      matchDirective nd cs = matchDirective nd' cs := by
  intro cs h
  unfold matchDirective
  split
  · rename_i rest
    rw [takeDigits_congr rest (fun c hc => h c (by simp [hc]))]
  · rename_i rest
    rw [takeDigits_congr rest (fun c hc => h c (by simp [hc]))]
  · rfl

theorem scanAux_congr {nd nd' : Char → Bool} :
    ∀ (f : Nat) (cs : List Char) (pos : Nat), (∀ c ∈ cs, nd c = nd' c) →
      scanAux nd f cs pos = scanAux nd' f cs pos := by
  intro f
  induction f with
  | zero => intro cs pos _; rfl
  | succ f ih =>
    intro cs pos h
    match cs with
    | [] => rfl
    | c :: cs2 =>
      have hmc := matchDirective_congr (c :: cs2) h
      rw [scanAux, scanAux, ← hmc]
      cases hmd : matchDirective nd (c :: cs2) with
      | none =>
        exact ih cs2 (pos + 1) (fun d hd => h d (by simp [hd]))
      | some r =>
        obtain ⟨k, ds, rem⟩ := r
        obtain ⟨hcs, -, -⟩ := matchDirective_some hmd
        have hrem : ∀ d ∈ rem, nd d = nd' d := by
          intro d hd
          apply h
          rw [hcs]
          exact List.mem_append_right _ hd
        dsimp only
        rw [ih rem _ hrem]

/-- Two digit classes agreeing on the input parse it identically. -/
theorem parse_congr {nd nd' : Char → Bool} {s : String}
    (h : ∀ c ∈ s.data, nd c = nd' c) :
    ParsedTemplate.parse nd s = ParsedTemplate.parse nd' s := by
  unfold ParsedTemplate.parse
  rw [show scanTemplate nd s.data 0 = scanAux nd s.data.length s.data 0
    from rfl,
    show scanTemplate nd' s.data 0 = scanAux nd' s.data.length s.data 0
    from rfl,
    scanAux_congr s.data.length s.data 0 h]

/-- Two digit classes agreeing on the stored value reserve the same
numbers from it. -/
theorem numbersIn_congr {nd nd' : Char → Bool} {s : String}
    (h : ∀ c ∈ s.data, nd c = nd' c) :
    VariableAllocator.numbersIn nd s = VariableAllocator.numbersIn nd' s := by
  unfold VariableAllocator.numbersIn
  rw [show digitRuns nd s.data = digitRunsAux nd s.data.length s.data
    from rfl,
    show digitRuns nd' s.data = digitRunsAux nd' s.data.length s.data
    from rfl,
    digitRunsAux_congr s.data.length s.data h]

/-! ## Claim C10 (parse error condition) -/

/-- C10 (counterexample): `COMPONENT_REGEX`'s `(\d+)` matches Unicode
digits, so the program errors on `{port:٣}` — the captured ARABIC-INDIC
DIGIT THREE (U+0663) fails the `u16` parse — although the input contains
no ASCII digit at all, so no digit run exceeds 65535 under the original
claim's reading.  `ndAsciiArabic` agrees with the Unicode class `Nd` on
every character of the input. -/
theorem parse_error_unicode_cex :
    ParsedTemplate.parse ndAsciiArabic "\x7bport:٣\x7d" =
      .error "Invalid value in component" ∧
    ("\x7bport:٣\x7d" : String).data.all (fun c => !isDigitChar c) = true := by
  refine ⟨by decide, by decide⟩

/-- C10 (amended): for every digit class devoid of braces (as the Unicode
class `Nd` is), `ParsedTemplate::parse` returns an error if and only if
the input contains a substring `{port:D}` or `{int:D}` whose digit run `D`
fails the `u16` parse — because it contains a non-ASCII Unicode digit, or
because it denotes a value above 65535; every other input parses
successfully, and braced fragments with unknown kinds yield zero
directives for every digit class, the text being kept as literal. -/
theorem parse_error_condition (nd : Char → Bool)
    (hlb : nd '{' = false) (hrb : nd '}' = false) :
    (∀ s : String,
      (∃ e, ParsedTemplate.parse nd s = .error e) ↔
      ∃ (pre post : List Char) (k : DirKind) (ds : List Char),
        s.data = pre ++ dirText k ds ++ post ∧ ds ≠ [] ∧
        ds.all nd = true ∧ parseU16 ds = none) ∧
    ParsedTemplate.parse nd "\x7binvalid:123\x7d" =
      .ok ⟨"\x7binvalid:123\x7d", []⟩ := by
  refine ⟨?_, rfl⟩
  intro s
  constructor
  · rintro ⟨e, he⟩
    unfold ParsedTemplate.parse at he
    split at he
    · cases he
    · rename_i e2 hbuild
      obtain ⟨r, hr, hbad⟩ := buildComponents_bad_of_error _ e2 hbuild
      obtain ⟨k, ds, st, en⟩ := r
      obtain ⟨⟨a, b, hab⟩, hne, hall⟩ := scan_entry_decomp _ _ _ _ _ _ _ hr
      exact ⟨a, b, k, ds, hab, hne, hall, hbad⟩
  · rintro ⟨pre, post, k, ds, hdecomp, hne, hall, hbad⟩
    obtain ⟨st, en, hmem⟩ := scan_finds_occurrence hlb hrb s.data.length
      s.data 0 pre k ds post le_rfl hdecomp hne hall
    obtain ⟨e, he⟩ := buildComponents_error_of_bad _ (k, ds, st, en) hmem hbad
    refine ⟨e, ?_⟩
    unfold ParsedTemplate.parse
    rw [show scanTemplate nd s.data 0 = scanAux nd s.data.length s.data 0
      from rfl, he]

/-- C10 (amended, witness): at the concrete digit-class fragment
`ndAsciiArabic`, the backward direction of the characterization exhibits
the error on `{port:99999}` (an all-ASCII run above 65535). -/
theorem parse_error_condition_witness :
    ∃ e, ParsedTemplate.parse ndAsciiArabic "\x7bport:99999\x7d" = .error e :=
  ((parse_error_condition ndAsciiArabic (by decide) (by decide)).1
      "\x7bport:99999\x7d").mpr
    ⟨[], [], DirKind.port, ['9', '9', '9', '9', '9'], by decide, by decide,
      by decide, by decide⟩

theorem chunked_length {pos : Nat} {cs : List Char} {ms : List RawMatch}
    {chunks : List (List Char)} (h : Chunked pos cs ms chunks) :
    chunks.length = ms.length + 1 := by
  induction h with
  | nil => rfl
  | cons _ _ _ _ _ _ _ _ ih => simp [ih]

theorem chunked_join {pos : Nat} {cs : List Char} {ms : List RawMatch}
    {chunks : List (List Char)} (h : Chunked pos cs ms chunks) :
    cs = joinInter chunks (ms.map fun r => dirText r.1 r.2.1) := by
  induction h with
  | nil => rfl
  | cons pos chunk k ds rest ms chunks _ ih =>
    simp only [List.map_cons, joinInter]
    rw [← ih]
    simp

theorem chunked_shift (c : Char) {pos : Nat} {cs : List Char}
    {ms : List RawMatch} {chunks : List (List Char)}
    (h : Chunked (pos + 1) cs ms chunks) :
    ∃ chunks2, Chunked pos (c :: cs) ms chunks2 := by
  cases h with
  | nil => exact ⟨[c :: cs], Chunked.nil pos (c :: cs)⟩
  | cons _ chunk k ds rest ms2 chunks2 htail =>
    refine ⟨(c :: chunk) :: chunks2, ?_⟩
    have hp : pos + 1 + chunk.length = pos + (c :: chunk).length := by
      simp only [List.length_cons]
      omega
    have htail2 : Chunked (pos + (c :: chunk).length + (dirText k ds).length)
        rest ms2 chunks2 := by
      rw [← hp]
      exact htail
    have hc := Chunked.cons pos (c :: chunk) k ds rest ms2 chunks2 htail2
    rw [hp]
    exact hc

/-- The scanned matches decompose the string into chunks. -/
theorem scan_chunked {nd : Char → Bool} :
    ∀ (f : Nat) (cs : List Char) (pos : Nat), cs.length ≤ f →
      ∃ chunks, Chunked pos cs (scanAux nd f cs pos) chunks := by
  intro f
  induction f with
  | zero =>
    intro cs pos _
    exact ⟨[cs], Chunked.nil pos cs⟩
  | succ f ih =>
    intro cs pos hlen
    match cs with
    | [] => exact ⟨[[]], Chunked.nil pos []⟩
    | c :: cs2 =>
      rw [scanAux]
      cases hmd : matchDirective nd (c :: cs2) with
      | none =>
        obtain ⟨chunks, hch⟩ := ih cs2 (pos + 1) (by simp at hlen; omega)
        exact chunked_shift c hch
      | some r =>
        obtain ⟨k0, ds0, rem⟩ := r
        obtain ⟨hcs0, hne0, hall0⟩ := matchDirective_some hmd
        have hrlen : rem.length ≤ f := by
          have := matchDirective_shrinks hmd
          omega
        have hlen0 : cs2.length + 1 - rem.length = (dirText k0 ds0).length := by
          have : cs2.length + 1 = (dirText k0 ds0).length + rem.length := by
            have h2 := congrArg List.length hcs0
            simpa [List.length_append] using h2
          omega
        obtain ⟨chunks, hch⟩ := ih rem (pos + (cs2.length + 1 - rem.length)) hrlen
        refine ⟨[] :: chunks, ?_⟩
        simp only [List.length_cons]
        rw [hlen0, hcs0]
        refine Chunked.cons pos [] k0 ds0 rem _ chunks ?_
        rw [hlen0] at hch
        exact hch

theorem sliceL_middle (x y z : List Char) :
    sliceL (x ++ (y ++ z)) x.length (x.length + y.length) = y := by
  unfold sliceL
  rw [List.take_append y.length, List.take_left, List.drop_left]

/-- Every match's recorded span slices out exactly its directive text. -/
theorem chunked_slices {pos : Nat} {cs : List Char} {ms : List RawMatch}
    {chunks : List (List Char)} (h : Chunked pos cs ms chunks) :
    ∀ (pre : List Char), pre.length = pos → ∀ r ∈ ms,
      sliceL (pre ++ cs) r.2.2.1 r.2.2.2 = dirText r.1 r.2.1 := by
  induction h with
  | nil => intro pre _ r hr; simp at hr
  | cons pos chunk k ds rest ms chunks htail ih =>
    intro pre hpre r hr
    rcases List.mem_cons.mp hr with rfl | hr
    · have hx : pre ++ (chunk ++ (dirText k ds ++ rest)) =
          (pre ++ chunk) ++ (dirText k ds ++ rest) := by simp
      have hlen2 : (pre ++ chunk).length = pos + chunk.length := by
        simp [hpre]
      have := sliceL_middle (pre ++ chunk) (dirText k ds) rest
      rw [hlen2] at this
      rw [hx]
      exact this
    · have hx : pre ++ (chunk ++ (dirText k ds ++ rest)) =
          (pre ++ chunk ++ dirText k ds) ++ rest := by simp
      have hlen2 : (pre ++ chunk ++ dirText k ds).length =
          pos + chunk.length + (dirText k ds).length := by
        simp only [List.length_append, hpre]
      have := ih (pre ++ chunk ++ dirText k ds) hlen2 r hr
      rw [← hx] at this
      exact this

/-- The resolve loop substitutes the supplied values exactly at the match
spans, keeping the literal chunks. -/
theorem chunked_resolve {pos : Nat} {cs : List Char} {ms : List RawMatch}
    {chunks : List (List Char)} (h : Chunked pos cs ms chunks) :
    ∀ (pre : List Char) (vals : List String) (idx : Nat),
      pre.length = pos →
      idx + ms.length ≤ vals.length →
      resolveLoop (pre ++ cs) vals (ms.map rawComp) idx pos =
        .ok (joinInter chunks (((vals.drop idx).take ms.length).map String.data)) := by
  induction h with
  | nil =>
    rename_i pos cs
    intro pre vals idx hpre _
    simp only [List.map_nil, resolveLoop]
    rw [← hpre, List.drop_left]
    rfl
  | cons pos chunk k ds rest ms chunks htail ih =>
    intro pre vals idx hpre hbound
    have hidx : idx < vals.length := by
      simp only [List.length_cons] at hbound
      omega
    have hpre2 : (pre ++ chunk ++ dirText k ds).length =
        pos + chunk.length + (dirText k ds).length := by
      simp only [List.length_append, hpre]
    have hbound2 : (idx + 1) + ms.length ≤ vals.length := by
      simp only [List.length_cons] at hbound
      omega
    have hIH := ih (pre ++ chunk ++ dirText k ds) vals (idx + 1) hpre2 hbound2
    have horig : pre ++ chunk ++ dirText k ds ++ rest =
        pre ++ (chunk ++ (dirText k ds ++ rest)) := by simp
    rw [horig] at hIH
    simp only [List.map_cons, resolveLoop, List.getElem?_eq_getElem hidx]
    simp only [rawComp]
    rw [hIH]
    have hslice := sliceL_middle pre chunk (dirText k ds ++ rest)
    rw [hpre] at hslice
    rw [hslice]
    have hdrop : vals.drop idx = vals[idx] :: vals.drop (idx + 1) :=
      List.drop_eq_getElem_cons hidx
    rw [hdrop]
    simp only [List.length_cons, List.take_succ_cons, List.map_cons, joinInter]

theorem chunked_nil_inv {pos : Nat} {cs : List Char}
    {chunks : List (List Char)} (h : Chunked pos cs [] chunks) :
    chunks = [cs] := by
  cases h with
  | nil => rfl

theorem parse_ok_components {nd : Char → Bool} {s : String}
    {t : ParsedTemplate}
    (h : ParsedTemplate.parse nd s = .ok t) :
    t.original = s ∧ t.components = (scanTemplate nd s.data 0).map rawComp := by
  unfold ParsedTemplate.parse at h
  split at h
  · rename_i comps hbuild
    obtain rfl : (⟨s, comps⟩ : ParsedTemplate) = t := Except.ok.inj h
    exact ⟨rfl, buildComponents_ok _ _ hbuild⟩
  · cases h

/-! ## Claim C9 (template round-trip) -/

/-- C9: for a successfully parsed template, (a) if the input is
directive-free, `resolve` reproduces it exactly under any values map; and
(b) in general the input decomposes into literal chunks interleaved with
the directive spans (the byte ranges recorded in the components), and
`resolve` produces exactly the same chunks with the supplied values
substituted at those spans, in order. -/
theorem template_round_trip :
    ∀ (nd : Char → Bool) (s : String) (t : ParsedTemplate) (vals : List String),
      ParsedTemplate.parse nd s = .ok t →
      (∀ w : List String, t.components = [] → t.resolve w = .ok s) ∧
      (vals.length = t.components.length →
        ∃ chunks : List (List Char),
          chunks.length = t.components.length + 1 ∧
          s.data = joinInter chunks
            (t.components.map fun c => sliceL s.data c.start_pos c.end_pos) ∧
          t.resolve vals = .ok ⟨joinInter chunks (vals.map String.data)⟩) := by
  intro nd s t vals hp
  obtain ⟨horig, hcomps⟩ := parse_ok_components hp
  have hpart1 : ∀ w : List String, t.components = [] → t.resolve w = .ok s := by
    intro w hempty
    unfold ParsedTemplate.resolve
    rw [hempty, horig]
    rfl
  refine ⟨hpart1, ?_⟩
  intro hlen
  obtain ⟨chunks, hch⟩ := scan_chunked s.data.length s.data 0 le_rfl
  have hsc : scanTemplate nd s.data 0 = scanAux nd s.data.length s.data 0 := rfl
  rw [← hsc] at hch
  have hmslen : t.components.length = (scanTemplate nd s.data 0).length := by
    rw [hcomps, List.length_map]
  refine ⟨chunks, ?_, ?_, ?_⟩
  · rw [hmslen]
    exact chunked_length hch
  · have hjoin := chunked_join hch
    have hslices := chunked_slices hch [] rfl
    rw [hcomps, List.map_map]
    have hmapeq : (scanTemplate nd s.data 0).map
        ((fun c => sliceL s.data c.start_pos c.end_pos) ∘ rawComp) =
        (scanTemplate nd s.data 0).map (fun r => dirText r.1 r.2.1) := by
      apply List.map_eq_map_iff.mpr
      intro r hr
      have := hslices r hr
      simpa [rawComp] using this
    rw [hmapeq]
    exact hjoin
  · by_cases hempty : t.components = []
    · have hms : scanTemplate nd s.data 0 = [] := by
        rw [hcomps] at hempty
        exact List.map_eq_nil_iff.mp hempty
      have hvnil : vals = [] := by
        rw [hempty] at hlen
        exact List.length_eq_zero.mp hlen
      subst hvnil
      rw [hpart1 [] hempty]
      rw [hms] at hch
      obtain rfl := chunked_nil_inv hch
      rfl
    · have hbound : 0 + (scanTemplate nd s.data 0).length ≤ vals.length := by
        rw [hlen, hmslen]
        omega
      have hres := chunked_resolve hch [] vals 0 rfl hbound
      rw [← hcomps] at hres
      have htake : (vals.drop 0).take (scanTemplate nd s.data 0).length = vals := by
        rw [List.drop_zero, ← hmslen, ← hlen, List.take_length]
      rw [htake] at hres
      unfold ParsedTemplate.resolve
      have hie : t.components.isEmpty = false := by
        rw [List.isEmpty_eq_false]
        exact hempty
      rw [hie, horig]
      simp only [Bool.false_eq_true, if_false]
      rw [show s.data = [] ++ s.data from rfl, hres]

/-- Witness for C9: the two-directive template
`server_\x7bport:3000\x7d_v\x7bint:2\x7d` parses, decomposes into three
literal chunks around its two directive spans, and resolves with the
values `3001`, `3` to the chunks with those values substituted. -/
theorem template_round_trip_witness :
    ∃ chunks : List (List Char),
      chunks.length =
        ([⟨ComponentType.port 3000, 7, 18⟩, ⟨ComponentType.int 2, 20, 27⟩] :
          List TemplateComponent).length + 1 ∧
      "server_\x7bport:3000\x7d_v\x7bint:2\x7d".data = joinInter chunks
        (([⟨ComponentType.port 3000, 7, 18⟩, ⟨ComponentType.int 2, 20, 27⟩] :
            List TemplateComponent).map fun c =>
          sliceL "server_\x7bport:3000\x7d_v\x7bint:2\x7d".data
            c.start_pos c.end_pos) ∧
      ParsedTemplate.resolve
        ⟨"server_\x7bport:3000\x7d_v\x7bint:2\x7d",
          [⟨ComponentType.port 3000, 7, 18⟩, ⟨ComponentType.int 2, 20, 27⟩]⟩
        ["3001", "3"] =
        .ok ⟨joinInter chunks ((["3001", "3"] : List String).map String.data)⟩ :=
  (template_round_trip ndAsciiArabic "server_\x7bport:3000\x7d_v\x7bint:2\x7d"
    ⟨"server_\x7bport:3000\x7d_v\x7bint:2\x7d",
      [⟨ComponentType.port 3000, 7, 18⟩, ⟨ComponentType.int 2, 20, 27⟩]⟩
    ["3001", "3"] (by decide)).2 (by decide)
